import Mathlib

/-!
Verification of the persistence layer of `core/storage.py`.

The Python module stores JSON-like dynamic values, so we first embed a
type `Json` of such values (Python's `None`, booleans, numbers, strings,
lists and dicts), together with the structural equality that Python's
`==` implements on them.

Numbers are modelled as integers: the storage layer round-trips values
through `json.dumps`/`json.loads`, and we keep the model inside the
exactly-representable fragment.
-/

inductive Json where
  | null
  | bool (b : Bool)
  | num (n : Int)
  | str (s : String)
  | arr (elems : List Json)
  | obj (members : List (String × Json))
deriving Repr, Inhabited

mutual

def Json.beq : Json → Json → Bool
  | .null, .null => true
  | .bool a, .bool b => a == b
  | .num a, .num b => a == b
  | .str a, .str b => a == b
  | .arr as, .arr bs => Json.beqArr as bs
  | .obj as, .obj bs => Json.beqObj as bs
  | _, _ => false

def Json.beqArr : List Json → List Json → Bool
  | [], [] => true
  | a :: as, b :: bs => Json.beq a b && Json.beqArr as bs
  | _, _ => false

def Json.beqObj : List (String × Json) → List (String × Json) → Bool
  | [], [] => true
  | (k1, v1) :: as, (k2, v2) :: bs => k1 == k2 && Json.beq v1 v2 && Json.beqObj as bs
  | _, _ => false

end

instance : BEq Json := ⟨Json.beq⟩

theorem Json.beq_def (a b : Json) : (a == b) = Json.beq a b := rfl

mutual

theorem Json.beq_self : ∀ a : Json, Json.beq a a = true
  | .null => rfl
  | .bool b => by simp [Json.beq]
  | .num n => by simp [Json.beq]
  | .str s => by simp [Json.beq]
  | .arr as => by simp [Json.beq, Json.beqArr_self as]
  | .obj as => by simp [Json.beq, Json.beqObj_self as]

theorem Json.beqArr_self : ∀ as : List Json, Json.beqArr as as = true
  | [] => rfl
  | a :: as => by simp [Json.beqArr, Json.beq_self a, Json.beqArr_self as]

theorem Json.beqObj_self : ∀ as : List (String × Json), Json.beqObj as as = true
  | [] => rfl
  | (k, v) :: as => by simp [Json.beqObj, Json.beq_self v, Json.beqObj_self as]

end

mutual

theorem Json.eq_of_beq : ∀ a b : Json, Json.beq a b = true → a = b
  | .null, .null, _ => rfl
  | .bool a, .bool b, h => by simpa [Json.beq] using h
  | .num a, .num b, h => by simpa [Json.beq] using h
  | .str a, .str b, h => by simpa [Json.beq] using h
  | .arr as, .arr bs, h => by
      simpa using Json.eqArr_of_beqArr as bs (by simpa [Json.beq] using h)
  | .obj as, .obj bs, h => by
      simpa using Json.eqObj_of_beqObj as bs (by simpa [Json.beq] using h)
  | .null, .bool _, h => by simp [Json.beq] at h
  | .null, .num _, h => by simp [Json.beq] at h
  | .null, .str _, h => by simp [Json.beq] at h
  | .null, .arr _, h => by simp [Json.beq] at h
  | .null, .obj _, h => by simp [Json.beq] at h
  | .bool _, .null, h => by simp [Json.beq] at h
  | .bool _, .num _, h => by simp [Json.beq] at h
  | .bool _, .str _, h => by simp [Json.beq] at h
  | .bool _, .arr _, h => by simp [Json.beq] at h
  | .bool _, .obj _, h => by simp [Json.beq] at h
  | .num _, .null, h => by simp [Json.beq] at h
  | .num _, .bool _, h => by simp [Json.beq] at h
  | .num _, .str _, h => by simp [Json.beq] at h
  | .num _, .arr _, h => by simp [Json.beq] at h
  | .num _, .obj _, h => by simp [Json.beq] at h
  | .str _, .null, h => by simp [Json.beq] at h
  | .str _, .bool _, h => by simp [Json.beq] at h
  | .str _, .num _, h => by simp [Json.beq] at h
  | .str _, .arr _, h => by simp [Json.beq] at h
  | .str _, .obj _, h => by simp [Json.beq] at h
  | .arr _, .null, h => by simp [Json.beq] at h
  | .arr _, .bool _, h => by simp [Json.beq] at h
  | .arr _, .num _, h => by simp [Json.beq] at h
  | .arr _, .str _, h => by simp [Json.beq] at h
  | .arr _, .obj _, h => by simp [Json.beq] at h
  | .obj _, .null, h => by simp [Json.beq] at h
  | .obj _, .bool _, h => by simp [Json.beq] at h
  | .obj _, .num _, h => by simp [Json.beq] at h
  | .obj _, .str _, h => by simp [Json.beq] at h
  | .obj _, .arr _, h => by simp [Json.beq] at h

theorem Json.eqArr_of_beqArr : ∀ as bs : List Json, Json.beqArr as bs = true → as = bs
  | [], [], _ => rfl
  | [], _ :: _, h => by simp [Json.beqArr] at h
  | _ :: _, [], h => by simp [Json.beqArr] at h
  | a :: as, b :: bs, h => by
      have h' := h
      simp only [Json.beqArr, Bool.and_eq_true] at h'
      rw [Json.eq_of_beq a b h'.1, Json.eqArr_of_beqArr as bs h'.2]

theorem Json.eqObj_of_beqObj :
    ∀ as bs : List (String × Json), Json.beqObj as bs = true → as = bs
  | [], [], _ => rfl
  | [], _ :: _, h => by simp [Json.beqObj] at h
  | _ :: _, [], h => by simp [Json.beqObj] at h
  | (k1, v1) :: as, (k2, v2) :: bs, h => by
      have h' := h
      simp only [Json.beqObj, Bool.and_eq_true] at h'
      obtain ⟨⟨hk, hv⟩, hrest⟩ := h'
      rw [Json.eq_of_beq v1 v2 hv, Json.eqObj_of_beqObj as bs hrest]
      simp only [beq_iff_eq] at hk
      rw [hk]

end

instance : LawfulBEq Json where
  eq_of_beq h := Json.eq_of_beq _ _ h
  rfl := Json.beq_self _

instance : DecidableEq Json := fun a b =>
  if h : Json.beq a b = true then .isTrue (Json.eq_of_beq a b h)
  else .isFalse (fun he => h (he ▸ Json.beq_self a))

/-!
Python truthiness, as used by `storage.py` in tests like
`if not account.get("id")` and `{... for acc in accounts if acc.get("id")}`.
-/

/-- Python truthiness of a dynamic value. -/
def truthy : Json → Bool
  | .null => false
  | .bool b => b
  | .num n => n != 0
  | .str s => !s.isEmpty
  | .arr xs => !xs.isEmpty
  | .obj m => !m.isEmpty

/-!
The account model.  An account is a Python dict; `storage.py` reads it
only through `account.get(field)`, which returns `None` for a missing
key, so we embed dicts as association lists (first binding wins, as
Python dict keys are unique) and make lookup total with `Json.null` as
the default.
-/

/-- Column list `ACCOUNT_FIELDS` from `storage.py`. -/
def ACCOUNT_FIELDS : List String :=
  ["id", "secure_c_ses", "host_c_oses", "csesidx", "config_id",
   "expires_at", "disabled", "mail_provider", "mail_address", "mail_password",
   "mail_client_id", "mail_refresh_token", "mail_tenant", "mail_base_url",
   "mail_jwt_token", "mail_verify_ssl", "mail_domain", "mail_api_key"]

/-- A Python dict holding an account record. -/
abbrev AccountDict := List (String × Json)

/-- Embedding of Python's `d.get(k)` (default `None`). -/
def dictGet (a : AccountDict) (k : String) : Json :=
  match a.find? (fun p => p.1 == k) with
  | some p => p.2
  | none => Json.null

/-- Embedding of `_account_dict_to_values`: the 18-tuple of parameters
bound to the INSERT placeholders, in `ACCOUNT_FIELDS` order. -/
def account_dict_to_values (a : AccountDict) : List Json :=
  ACCOUNT_FIELDS.map (fun f => dictGet a f)

/-- One row of the `accounts` table: the 18 `ACCOUNT_FIELDS` column
values in order, plus the two server-assigned timestamps. -/
structure Row where
  vals : List Json
  created_at : Nat
  updated_at : Nat
deriving Repr

/-- The `id` column of a row (primary key). -/
def rowId (r : Row) : Json := r.vals.getD 0 Json.null

/-- The persisted `accounts` table. -/
abbrev Table := List Row

/-- The UPSERT statement issued per record by `save_accounts` /
`save_account`: `INSERT ... ON CONFLICT (id) DO UPDATE SET` every
non-`id` column from the excluded row and refresh `updated_at`. -/
def upsert (now : Nat) (a : AccountDict) (t : Table) : Table :=
  let vs := account_dict_to_values a
  let idv := dictGet a "id"
  if t.any (fun r => rowId r == idv) then
    t.map (fun r =>
      if rowId r == idv then
        { r with vals := rowId r :: vs.drop 1, updated_at := now }
      else r)
  else
    t ++ [⟨vs, now, now⟩]

/-!
Environment and effect model.  Each storage call can fail at the pool
boundary (`_get_pool` / `pool.acquire`) or at an individual SQL
statement; `storage.py` catches every exception at the call boundary
and returns a sentinel.  `DbEnv.stmtOk i` says whether the `i`-th SQL
statement issued by the call succeeds.  Each embedded operation also
reports the list of database effects it attempted, so that "does not
touch the database" is provable, not just observable.
-/

/-- Failure environment of a single storage call. -/
structure DbEnv where
  enabled : Bool
  poolOk : Bool
  stmtOk : Nat → Bool

/-- A database effect attempted by a call. -/
inductive DbEff where
  | getPool
  | stmt (i : Nat)
deriving Repr, DecidableEq

/-- Row-to-dict conversion `_account_row_to_dict` (every selected field
is present in the row, so the comprehension keeps all 18 fields). -/
def account_row_to_dict (r : Row) : AccountDict :=
  ACCOUNT_FIELDS.zip r.vals

/-- Insertion step for ordering rows by `created_at` (the
`ORDER BY created_at` of `load_accounts`). -/
def insertByCreated (r : Row) : Table → Table
  | [] => [r]
  | s :: t => if r.created_at < s.created_at then r :: s :: t
              else s :: insertByCreated r t

/-- Sort the table by `created_at`. -/
def sortByCreated : Table → Table
  | [] => []
  | r :: t => insertByCreated r (sortByCreated t)

/-- Embedding of `load_accounts`: `None` when disabled, `None` on any
database failure (the exception is caught and logged), otherwise all
rows ordered by creation time, converted to dicts. -/
def load_accounts (env : DbEnv) (E : Table) : Option (List AccountDict) × List DbEff :=
  if !env.enabled then (none, [])
  else if !env.poolOk then (none, [.getPool])
  else if !env.stmtOk 0 then (none, [.getPool, .stmt 0])
  else (some ((sortByCreated E).map account_row_to_dict), [.getPool, .stmt 0])

/-- Embedding of `save_account`: single-row upsert; `False` when
disabled or when the record has a falsy `id`, both before any pool
access. -/
def save_account (env : DbEnv) (now : Nat) (a : AccountDict) (E : Table) :
    (Bool × Table) × List DbEff :=
  if !env.enabled then ((false, E), [])
  else if !(truthy (dictGet a "id")) then ((false, E), [])
  else if !env.poolOk then ((false, E), [.getPool])
  else if !env.stmtOk 0 then ((false, E), [.getPool, .stmt 0])
  else ((true, upsert now a E), [.getPool, .stmt 0])

/-- The upsert loop of `save_accounts`, numbering SQL statements from
`k`; records with a falsy `id` are skipped.  Returns `none` as soon as
a statement fails (the exception aborts the loop), together with the
statements attempted. -/
def run_upserts (stmtOk : Nat → Bool) (now : Nat) :
    List AccountDict → Nat → Table → Option Table × List DbEff
  | [], _, t => (some t, [])
  | a :: rest, k, t =>
    if truthy (dictGet a "id") then
      if stmtOk k then
        let res := run_upserts stmtOk now rest (k + 1) (upsert now a t)
        (res.1, .stmt k :: res.2)
      else (none, [.stmt k])
    else run_upserts stmtOk now rest k t

/-- The target id set `new_ids` of `save_accounts`:
`{acc.get("id") for acc in accounts if acc.get("id")}` (a list here;
only membership is ever used). -/
def targetIds (accounts : List AccountDict) : List Json :=
  (accounts.map (fun a => dictGet a "id")).filter truthy

/-- Embedding of `save_accounts`: full-set reconciliation inside one
transaction.  Statement 0 is the `SELECT id`, statement 1 the batched
`DELETE` (issued only when `ids_to_delete` is non-empty), and the
upserts follow in list order.  A failing statement raises, the
transaction rolls back (the returned table is the original `E`), the
boundary handler returns `False`. -/
def save_accounts (env : DbEnv) (now : Nat) (accounts : List AccountDict) (E : Table) :
    (Bool × Table) × List DbEff :=
  if !env.enabled then ((false, E), [])
  else if !env.poolOk then ((false, E), [.getPool])
  else if !env.stmtOk 0 then ((false, E), [.getPool, .stmt 0])
  else
    let existing_ids := E.map rowId
    let new_ids := targetIds accounts
    let ids_to_delete := existing_ids.filter (fun i => !(new_ids.contains i))
    if ids_to_delete.isEmpty then
      let res := run_upserts env.stmtOk now accounts 1 E
      match res.1 with
      | some t => ((true, t), .getPool :: .stmt 0 :: res.2)
      | none => ((false, E), .getPool :: .stmt 0 :: res.2)
    else
      if !env.stmtOk 1 then ((false, E), [.getPool, .stmt 0, .stmt 1])
      else
        let t1 := E.filter (fun r => !(ids_to_delete.contains (rowId r)))
        let res := run_upserts env.stmtOk now accounts 2 t1
        match res.1 with
        | some t => ((true, t), .getPool :: .stmt 0 :: .stmt 1 :: res.2)
        | none => ((false, E), .getPool :: .stmt 0 :: .stmt 1 :: res.2)

/-- Embedding of `delete_account`: delete by primary key; the id is a
string bound to a TEXT column. -/
def delete_account (env : DbEnv) (aid : String) (E : Table) :
    (Bool × Table) × List DbEff :=
  if !env.enabled then ((false, E), [])
  else if !env.poolOk then ((false, E), [.getPool])
  else if !env.stmtOk 0 then ((false, E), [.getPool, .stmt 0])
  else ((true, E.filter (fun r => !(rowId r == Json.str aid))), [.getPool, .stmt 0])

/-- Embedding of `delete_accounts`: the empty list returns `True`
before any pool access. -/
def delete_accounts (env : DbEnv) (ids : List String) (E : Table) :
    (Bool × Table) × List DbEff :=
  if !env.enabled then ((false, E), [])
  else if ids.isEmpty then ((true, E), [])
  else if !env.poolOk then ((false, E), [.getPool])
  else if !env.stmtOk 0 then ((false, E), [.getPool, .stmt 0])
  else ((true, E.filter (fun r => !(ids.map Json.str).contains (rowId r))), [.getPool, .stmt 0])

/-!
Helper predicates for the reconciliation proofs.
-/

/-- The failure-free environment: storage enabled, pool reachable, every
SQL statement succeeds. -/
def allOk : DbEnv := ⟨true, true, fun _ => true⟩

/-- The cumulative effect of the upsert loop on the table when every
statement succeeds. -/
def applyUpserts (now : Nat) (accounts : List AccountDict) (t : Table) : Table :=
  accounts.foldl
    (fun t a => if truthy (dictGet a "id") then upsert now a t else t) t

theorem applyUpserts_nil (now : Nat) (t : Table) : applyUpserts now [] t = t := rfl

theorem applyUpserts_cons (now : Nat) (a : AccountDict) (rest : List AccountDict)
    (t : Table) :
    applyUpserts now (a :: rest) t =
      applyUpserts now rest (if truthy (dictGet a "id") then upsert now a t else t) := by
  simp [applyUpserts, List.foldl_cons]

theorem run_upserts_allOk (now : Nat) :
    ∀ (accounts : List AccountDict) (k : Nat) (t : Table),
      (run_upserts (fun _ => true) now accounts k t).1 =
        some (applyUpserts now accounts t)
  | [], _, t => rfl
  | a :: rest, k, t => by
    by_cases h : truthy (dictGet a "id") = true
    · simp [run_upserts, h, run_upserts_allOk now rest (k + 1) (upsert now a t),
        applyUpserts_cons]
    · have hh : truthy (dictGet a "id") = false := by simpa using h
      simp [run_upserts, hh, run_upserts_allOk now rest k t, applyUpserts_cons]

theorem account_dict_to_values_head (a : AccountDict) :
    (account_dict_to_values a).getD 0 Json.null = dictGet a "id" := rfl

theorem account_dict_to_values_ne_nil (a : AccountDict) :
    account_dict_to_values a ≠ [] := by
  simp [account_dict_to_values, ACCOUNT_FIELDS]

theorem rowId_new (now : Nat) (a : AccountDict) :
    rowId ⟨account_dict_to_values a, now, now⟩ = dictGet a "id" := rfl

theorem rowId_update (r : Row) (vs : List Json) (now : Nat) :
    rowId { r with vals := rowId r :: vs, updated_at := now } = rowId r := by
  simp [rowId]

theorem mem_ids_upsert (now : Nat) (a : AccountDict) (t : Table) (j : Json) :
    j ∈ (upsert now a t).map rowId ↔ (j ∈ t.map rowId ∨ j = dictGet a "id") := by
  simp only [upsert]
  by_cases h : t.any (fun r => rowId r == dictGet a "id") = true
  · rw [if_pos h]
    have hmap : (t.map (fun r =>
        if rowId r == dictGet a "id" then
          { r with vals := rowId r :: (account_dict_to_values a).drop 1, updated_at := now }
        else r)).map rowId = t.map rowId := by
      rw [List.map_map]
      apply List.map_congr_left
      intro r _
      simp only [Function.comp_apply]
      by_cases hr : (rowId r == dictGet a "id") = true
      · rw [if_pos hr, rowId_update]
      · rw [if_neg hr]
    rw [hmap]
    constructor
    · exact Or.inl
    · rintro (hj | rfl)
      · exact hj
      · rw [List.any_eq_true] at h
        obtain ⟨r, hr, hbeq⟩ := h
        have : rowId r = dictGet a "id" := by simpa using hbeq
        exact this ▸ List.mem_map_of_mem rowId hr
  · rw [if_neg h]
    simp [rowId_new]

theorem mem_ids_applyUpserts (now : Nat) :
    ∀ (accounts : List AccountDict) (t : Table) (j : Json),
      j ∈ (applyUpserts now accounts t).map rowId ↔
        (j ∈ t.map rowId ∨ j ∈ targetIds accounts)
  | [], t, j => by simp [applyUpserts, targetIds]
  | a :: rest, t, j => by
    rw [applyUpserts_cons]
    by_cases h : truthy (dictGet a "id") = true
    · rw [if_pos h, mem_ids_applyUpserts now rest (upsert now a t) j,
        mem_ids_upsert]
      have htarget : targetIds (a :: rest) = dictGet a "id" :: targetIds rest := by
        simp [targetIds, h]
      rw [htarget]
      simp only [List.mem_cons]
      tauto
    · rw [if_neg h, mem_ids_applyUpserts now rest t j]
      have htarget : targetIds (a :: rest) = targetIds rest := by
        simp [targetIds, h]
      rw [htarget]

/-- The reconciled table: rows whose id is absent from the target set
are dropped, then every target record is upserted in order. -/
def reconcile (now : Nat) (T : List AccountDict) (E : Table) : Table :=
  applyUpserts now T (E.filter (fun r => (targetIds T).contains (rowId r)))


theorem contains_eq_true_iff {α : Type} [BEq α] [LawfulBEq α] (l : List α) (a : α) :
    l.contains a = true ↔ a ∈ l :=
  ⟨List.mem_of_elem_eq_true, List.elem_eq_true_of_mem⟩

theorem save_accounts_allOk (now : Nat) (T : List AccountDict) (E : Table) :
    (save_accounts allOk now T E).1 = (true, reconcile now T E) := by
  simp only [save_accounts, allOk, Bool.not_true, Bool.false_eq_true, if_false,
    ite_false, Bool.not_false, ite_true]
  by_cases hdel :
      ((E.map rowId).filter (fun i => !((targetIds T).contains i))).isEmpty = true
  · rw [if_pos hdel]
    have hall : ∀ i ∈ E.map rowId, (targetIds T).contains i = true := by
      intro i hi
      have := List.filter_eq_nil_iff.mp (List.isEmpty_iff.mp hdel) i hi
      simpa using this
    have hfilter : E.filter (fun r => (targetIds T).contains (rowId r)) = E :=
      List.filter_eq_self.mpr (fun r hr => hall (rowId r) (List.mem_map_of_mem rowId hr))
    rw [run_upserts_allOk]
    show (true, applyUpserts now T E) = (true, reconcile now T E)
    unfold reconcile
    rw [hfilter]
  · rw [if_neg hdel]
    have hfilter : E.filter
        (fun r => !(((E.map rowId).filter (fun i => !((targetIds T).contains i))).contains (rowId r)))
        = E.filter (fun r => (targetIds T).contains (rowId r)) := by
      apply List.filter_congr
      intro r hr
      by_cases hm : rowId r ∈ targetIds T
      · have hc : (targetIds T).contains (rowId r) = true :=
          (contains_eq_true_iff _ _).mpr hm
        rw [hc]
        have hnd : ¬ rowId r ∈ (E.map rowId).filter (fun i => !((targetIds T).contains i)) := by
          intro hmem
          have hp := List.of_mem_filter hmem
          rw [hc] at hp
          simp at hp
        have hcf : ((E.map rowId).filter
            (fun i => !((targetIds T).contains i))).contains (rowId r) = false := by
          rw [Bool.eq_false_iff]
          intro hcc
          exact hnd ((contains_eq_true_iff _ _).mp hcc)
        rw [hcf]
        rfl
      · have hc : (targetIds T).contains (rowId r) = false := by
          rw [Bool.eq_false_iff]
          intro hcc
          exact hm ((contains_eq_true_iff _ _).mp hcc)
        rw [hc]
        have hmem : rowId r ∈ (E.map rowId).filter (fun i => !((targetIds T).contains i)) :=
          List.mem_filter_of_mem (List.mem_map_of_mem rowId hr) (by rw [hc]; rfl)
        have hct : ((E.map rowId).filter
            (fun i => !((targetIds T).contains i))).contains (rowId r) = true :=
          (contains_eq_true_iff _ _).mpr hmem
        rw [hct]
        rfl
    rw [run_upserts_allOk]
    show (true, applyUpserts now T
        (E.filter (fun r =>
          !(((E.map rowId).filter (fun i => !((targetIds T).contains i))).contains (rowId r)))))
      = (true, reconcile now T E)
    unfold reconcile
    rw [hfilter]

/-- C1: full-set reconciliation correctness.  In the failure-free
environment, `save_accounts T` succeeds and the persisted id set equals
exactly the set of truthy ids of `T` — no extra rows, none missing; in
particular `T = []` wipes every row of a non-empty table. -/
theorem save_accounts_id_set (now : Nat) (T : List AccountDict) (E : Table) :
    (save_accounts allOk now T E).1.1 = true ∧
      ∀ j : Json,
        j ∈ ((save_accounts allOk now T E).1.2.map rowId) ↔ j ∈ targetIds T := by
  have hshape := save_accounts_allOk now T E
  constructor
  · rw [hshape]
  · intro j
    rw [hshape]
    show j ∈ (reconcile now T E).map rowId ↔ j ∈ targetIds T
    rw [reconcile, mem_ids_applyUpserts]
    constructor
    · rintro (hj | hj)
      · obtain ⟨r, hr, rfl⟩ := List.mem_map.mp hj
        have := List.of_mem_filter hr
        exact (contains_eq_true_iff _ _).mp this
      · exact hj
    · exact Or.inr

theorem save_accounts_false_table (env : DbEnv) (now : Nat) (T : List AccountDict)
    (E : Table) :
    (save_accounts env now T E).1.1 = false → (save_accounts env now T E).1.2 = E := by
  simp only [save_accounts]
  split_ifs <;>
    first
      | (intro _; rfl)
      | (split <;> intro h <;> first | rfl | simp at h)

theorem run_upserts_stmt_ok (s : Nat → Bool) (now : Nat) :
    ∀ (A : List AccountDict) (k : Nat) (t : Table) (i : Nat),
      (run_upserts s now A k t).1.isSome = true →
      DbEff.stmt i ∈ (run_upserts s now A k t).2 → s i = true
  | [], k, t, i => by simp [run_upserts]
  | a :: rest, k, t, i => by
    by_cases ht : truthy (dictGet a "id") = true
    · by_cases hs : s k = true
      · intro hsome hmem
        simp only [run_upserts, ht, hs, if_true] at hsome hmem
        rcases List.mem_cons.mp hmem with he | he
        · cases he
          exact hs
        · exact run_upserts_stmt_ok s now rest (k + 1) (upsert now a t) i hsome he
      · intro hsome hmem
        simp [run_upserts, ht, hs] at hsome
    · intro hsome hmem
      have ht' : truthy (dictGet a "id") = false := by simpa using ht
      simp only [run_upserts, ht', Bool.false_eq_true, if_false] at hsome hmem
      exact run_upserts_stmt_ok s now rest k t i hsome hmem

theorem save_accounts_true_stmts (env : DbEnv) (now : Nat) (T : List AccountDict)
    (E : Table) :
    (save_accounts env now T E).1.1 = true →
    ∀ i, DbEff.stmt i ∈ (save_accounts env now T E).2 → env.stmtOk i = true := by
  simp only [save_accounts]
  split_ifs with h1 h2 h3 h4 h5
  · intro h; simp at h
  · intro h; simp at h
  · intro h; simp at h
  · split
    case _ t heq =>
      intro _ i hmem
      rcases List.mem_cons.mp hmem with he | he
      · cases he
      · rcases List.mem_cons.mp he with he2 | he2
        · cases he2
          simpa using h3
        · exact run_upserts_stmt_ok env.stmtOk now T 1 E i (by rw [heq]; rfl) he2
    case _ heq =>
      intro h; simp at h
  · intro h; simp at h
  · split
    case _ t heq =>
      intro _ i hmem
      rcases List.mem_cons.mp hmem with he | he
      · cases he
      · rcases List.mem_cons.mp he with he2 | he2
        · cases he2
          simpa using h3
        · rcases List.mem_cons.mp he2 with he3 | he3
          · cases he3
            simpa using h5
          · exact run_upserts_stmt_ok env.stmtOk now T 2
              (E.filter (fun r =>
                !(((E.map rowId).filter
                    (fun i => !((targetIds T).contains i))).contains (rowId r)))) i
              (by rw [heq]; rfl) he3
    case _ heq =>
      intro h; simp at h

/-- C2: reconciliation atomicity.  If a statement that `save_accounts`
actually issued (deletion or any upsert — `DbEff.stmt i` among its
attempted effects) fails, the call returns `False` and the persisted
table is unchanged: it is still exactly `E`, never a mix of `E` and a
partially-applied target list. -/
theorem save_accounts_atomic (env : DbEnv) (now : Nat) (T : List AccountDict)
    (E : Table) (i : Nat)
    (hmem : DbEff.stmt i ∈ (save_accounts env now T E).2)
    (hfail : env.stmtOk i = false) :
    (save_accounts env now T E).1 = (false, E) := by
  by_cases hb : (save_accounts env now T E).1.1 = true
  · have := save_accounts_true_stmts env now T E hb i hmem
    rw [hfail] at this
    cases this
  · have hb' : (save_accounts env now T E).1.1 = false := by
      simpa using hb
    have ht := save_accounts_false_table env now T E hb'
    exact Prod.ext hb' ht

/-- Witness for C2: with every statement failing, the `SELECT id`
(statement 0) is attempted and fails, and the call returns `False`
with the table untouched. -/
theorem save_accounts_atomic_witness :
    (save_accounts ⟨true, true, fun _ => false⟩ 0 [] [⟨[Json.str "y"], 1, 1⟩]).1
      = (false, [⟨[Json.str "y"], 1, 1⟩]) :=
  save_accounts_atomic ⟨true, true, fun _ => false⟩ 0 [] [⟨[Json.str "y"], 1, 1⟩] 0
    (by decide) rfl

/-- The last record of `T` that would upsert under id `j` (truthy id
equal to `j`), i.e. the record whose field values win. -/
def lastRecordFor (T : List AccountDict) (j : Json) : Option AccountDict :=
  (T.filter (fun a => truthy (dictGet a "id") && (dictGet a "id" == j))).getLast?

theorem cons_getD_drop {α : Type} (l : List α) (d : α) (h : l ≠ []) :
    l.getD 0 d :: l.drop 1 = l := by
  cases l with
  | nil => exact absurd rfl h
  | cons a t => rfl

theorem upsert_self_vals (now : Nat) (a : AccountDict) (t : Table) :
    ∀ row ∈ upsert now a t, rowId row = dictGet a "id" →
      row.vals = account_dict_to_values a := by
  simp only [upsert]
  by_cases h : t.any (fun r => rowId r == dictGet a "id") = true
  · rw [if_pos h]
    intro row hrow hid
    obtain ⟨r, hr, hre⟩ := List.mem_map.mp hrow
    by_cases hmatch : (rowId r == dictGet a "id") = true
    · rw [if_pos hmatch] at hre
      rw [← hre]
      show rowId r :: (account_dict_to_values a).drop 1 = account_dict_to_values a
      have : rowId r = dictGet a "id" := by simpa using hmatch
      rw [this, ← account_dict_to_values_head a]
      exact cons_getD_drop _ _ (account_dict_to_values_ne_nil a)
    · rw [if_neg hmatch] at hre
      rw [← hre] at hid
      exact absurd (by simpa using hid) hmatch
  · rw [if_neg h]
    intro row hrow hid
    rcases List.mem_append.mp hrow with hin | hin
    · exfalso
      apply h
      rw [List.any_eq_true]
      exact ⟨row, hin, by simpa using hid⟩
    · have : row = ⟨account_dict_to_values a, now, now⟩ := by simpa using hin
      rw [this]

theorem mem_of_upsert_ne (now : Nat) (a : AccountDict) (t : Table) :
    ∀ row ∈ upsert now a t, rowId row ≠ dictGet a "id" → row ∈ t := by
  simp only [upsert]
  by_cases h : t.any (fun r => rowId r == dictGet a "id") = true
  · rw [if_pos h]
    intro row hrow hid
    obtain ⟨r, hr, hre⟩ := List.mem_map.mp hrow
    by_cases hmatch : (rowId r == dictGet a "id") = true
    · exfalso
      apply hid
      rw [← hre]
      have : rowId r = dictGet a "id" := by simpa using hmatch
      calc rowId (if (rowId r == dictGet a "id") = true then
              { r with vals := rowId r :: (account_dict_to_values a).drop 1, updated_at := now }
            else r)
          = rowId r := by rw [if_pos hmatch, rowId_update]
        _ = dictGet a "id" := this
    · rw [if_neg hmatch] at hre
      rw [← hre]; exact hr
  · rw [if_neg h]
    intro row hrow hid
    rcases List.mem_append.mp hrow with hin | hin
    · exact hin
    · exfalso
      apply hid
      have : row = ⟨account_dict_to_values a, now, now⟩ := by simpa using hin
      rw [this, rowId_new]

theorem applyUpserts_no_id (now : Nat) (j : Json) :
    ∀ (A : List AccountDict) (t : Table),
      (∀ b ∈ A, truthy (dictGet b "id") = true → dictGet b "id" ≠ j) →
      ∀ row ∈ applyUpserts now A t, rowId row = j → row ∈ t
  | [], t => by intro _ row hrow _; simpa [applyUpserts] using hrow
  | b :: A', t => by
    intro hA row hrow hid
    rw [applyUpserts_cons] at hrow
    by_cases hb : truthy (dictGet b "id") = true
    · rw [if_pos hb] at hrow
      have hrow' := applyUpserts_no_id now j A' (upsert now b t)
        (fun x hx => hA x (List.mem_cons_of_mem b hx)) row hrow hid
      apply mem_of_upsert_ne now b t row hrow'
      rw [hid]
      exact fun he => hA b (List.mem_cons_self b A') hb he.symm
    · rw [if_neg hb] at hrow
      exact applyUpserts_no_id now j A' t
        (fun x hx => hA x (List.mem_cons_of_mem b hx)) row hrow hid

theorem applyUpserts_last_wins (now : Nat) (j : Json) :
    ∀ (A : List AccountDict) (t : Table) (a : AccountDict),
      lastRecordFor A j = some a →
      ∀ row ∈ applyUpserts now A t, rowId row = j →
        row.vals = account_dict_to_values a
  | [], t, a => by intro h; cases h
  | b :: A', t, a => by
    intro hlast row hrow hid
    rw [applyUpserts_cons] at hrow
    by_cases hA' : (A'.filter (fun x => truthy (dictGet x "id") && (dictGet x "id" == j))) = []
    · have hpb : (truthy (dictGet b "id") && (dictGet b "id" == j)) = true := by
        by_contra hpb
        have : lastRecordFor (b :: A') j = none := by
          simp only [lastRecordFor, List.filter_cons]
          rw [if_neg hpb, hA']
          rfl
        rw [this] at hlast
        cases hlast
      have hba : b = a := by
        have : lastRecordFor (b :: A') j = some b := by
          simp only [lastRecordFor, List.filter_cons]
          rw [if_pos hpb, hA']
          rfl
        rw [this] at hlast
        exact Option.some.inj hlast
      obtain ⟨htb, hjb⟩ := Bool.and_eq_true_iff.mp hpb
      have hjb' : dictGet b "id" = j := by simpa using hjb
      rw [if_pos htb] at hrow
      have hnone : ∀ x ∈ A', truthy (dictGet x "id") = true → dictGet x "id" ≠ j := by
        intro x hx htx he
        have : x ∈ A'.filter (fun x => truthy (dictGet x "id") && (dictGet x "id" == j)) :=
          List.mem_filter_of_mem hx (by rw [he] at htx; simp [he, htx])
        rw [hA'] at this
        cases this
      have hmem : row ∈ upsert now b t :=
        applyUpserts_no_id now j A' (upsert now b t) hnone row hrow hid
      rw [← hba]
      exact upsert_self_vals now b t row hmem (by rw [hid, hjb'])
    · have hlast' : lastRecordFor A' j = some a := by
        rw [lastRecordFor] at hlast ⊢
        rw [List.filter_cons] at hlast
        by_cases hpb : (truthy (dictGet b "id") && (dictGet b "id" == j)) = true
        · rw [if_pos hpb] at hlast
          obtain ⟨c, l', hcl⟩ := List.exists_cons_of_ne_nil hA'
          rw [hcl] at hlast ⊢
          simpa [List.getLast?_cons_cons] using hlast
        · rw [if_neg hpb] at hlast
          exact hlast
      by_cases hb : truthy (dictGet b "id") = true
      · rw [if_pos hb] at hrow
        exact applyUpserts_last_wins now j A' (upsert now b t) a hlast' row hrow hid
      · rw [if_neg hb] at hrow
        exact applyUpserts_last_wins now j A' t a hlast' row hrow hid

/-- C8: duplicate ids in the target list — last one wins.  A successful
failure-free `save_accounts T` (it returns `True`, raising no
de-duplication error) leaves, for any id `j` whose last matching record
in `T` is `a`, every persisted row with id `j` carrying exactly the
field values of `a`. -/
theorem save_accounts_last_wins (now : Nat) (T : List AccountDict) (E : Table)
    (j : Json) (a : AccountDict) (hlast : lastRecordFor T j = some a) :
    (save_accounts allOk now T E).1.1 = true ∧
      ∀ row ∈ (save_accounts allOk now T E).1.2, rowId row = j →
        row.vals = account_dict_to_values a := by
  have hshape := save_accounts_allOk now T E
  constructor
  · rw [hshape]
  · intro row hrow hid
    rw [hshape] at hrow
    exact applyUpserts_last_wins now j T _ a hlast row hrow hid

/-- Witness for C8: two records share id `"x"`; after reconciliation the
persisted row for `"x"` holds the second record's values. -/
theorem save_accounts_last_wins_witness :
    lastRecordFor [[("id", Json.str "x"), ("csesidx", Json.str "1")],
        [("id", Json.str "x"), ("csesidx", Json.str "2")]] (Json.str "x")
      = some [("id", Json.str "x"), ("csesidx", Json.str "2")] ∧
    ∀ row ∈ (save_accounts allOk 7
        [[("id", Json.str "x"), ("csesidx", Json.str "1")],
         [("id", Json.str "x"), ("csesidx", Json.str "2")]] []).1.2,
      rowId row = Json.str "x" →
        row.vals = account_dict_to_values [("id", Json.str "x"), ("csesidx", Json.str "2")] :=
  ⟨by decide,
   (save_accounts_last_wins 7
      [[("id", Json.str "x"), ("csesidx", Json.str "1")],
       [("id", Json.str "x"), ("csesidx", Json.str "2")]] [] (Json.str "x")
      [("id", Json.str "x"), ("csesidx", Json.str "2")] (by decide)).2⟩

/-- C7: disabled-store no-op.  With the enablement signal absent
(`DATABASE_URL` empty, `is_database_enabled()` false), `load_accounts`
returns `None` — not an empty list, not an exception — and
`save_account` returns `False`, and neither attempts pool creation or
any database statement (empty effect list). -/
theorem disabled_store_noop (env : DbEnv) (now : Nat) (a : AccountDict) (E : Table)
    (hdis : env.enabled = false) :
    load_accounts env E = (none, []) ∧ save_account env now a E = ((false, E), []) := by
  constructor
  · simp [load_accounts, hdis]
  · simp [save_account, hdis]

/-- Witness for C7 at a concrete disabled environment whose pool and
statements would fail if they were ever touched. -/
theorem disabled_store_noop_witness :
    load_accounts ⟨false, false, fun _ => false⟩ [⟨[Json.str "y"], 1, 1⟩] = (none, []) ∧
      save_account ⟨false, false, fun _ => false⟩ 3 [("id", Json.str "x")]
        [⟨[Json.str "y"], 1, 1⟩] = ((false, [⟨[Json.str "y"], 1, 1⟩]), []) :=
  disabled_store_noop ⟨false, false, fun _ => false⟩ 3 [("id", Json.str "x")]
    [⟨[Json.str "y"], 1, 1⟩] rfl

/-- C9: delete no-op semantics.  With storage enabled and the database
reachable, deleting an id that matches no persisted row succeeds
(`True`) and leaves the table exactly as it was; deleting an empty id
list succeeds without even touching the pool (empty effect list),
whatever the state of the database. -/
theorem delete_noop (aid : String) (E : Table) (env : DbEnv)
    (henv : env.enabled = true)
    (hnone : ∀ row ∈ E, rowId row ≠ Json.str aid) :
    (delete_account allOk aid E).1 = (true, E) ∧
      delete_accounts env [] E = ((true, E), []) := by
  constructor
  · simp only [delete_account, allOk, Bool.not_true, Bool.false_eq_true, if_false,
      ite_false, Bool.not_false, ite_true]
    have : E.filter (fun r => !(rowId r == Json.str aid)) = E := by
      apply List.filter_eq_self.mpr
      intro r hr
      simpa using hnone r hr
    rw [this]
  · simp [delete_accounts, henv]

/-- Witness for C9: table with one row of id `"y"`, deleting the absent
id `"z"`; the empty-list delete runs in an environment whose pool is
broken, showing it is never touched. -/
theorem delete_noop_witness :
    (delete_account allOk "z" [⟨[Json.str "y"], 1, 1⟩]).1 = (true, [⟨[Json.str "y"], 1, 1⟩]) ∧
      delete_accounts ⟨true, false, fun _ => false⟩ [] [⟨[Json.str "y"], 1, 1⟩]
        = ((true, [⟨[Json.str "y"], 1, 1⟩]), []) :=
  delete_noop "z" [⟨[Json.str "y"], 1, 1⟩] ⟨true, false, fun _ => false⟩ rfl
    (by decide)

/-- C10 (implicit): in `load_accounts`, failure is indistinguishable
from disabled.  Any database failure — pool creation/acquisition or the
query itself — is caught and yields `None`, the very sentinel returned
when storage is not configured; no exception escapes and no partial
list is returned. -/
theorem load_accounts_failure_is_none (env : DbEnv) (E : Table)
    (henb : env.enabled = true)
    (hfail : env.poolOk = false ∨ env.stmtOk 0 = false) :
    (load_accounts env E).1 = none ∧
      ∀ (env' : DbEnv) (E' : Table), env'.enabled = false →
        (load_accounts env' E').1 = none := by
  constructor
  · rcases hfail with h | h
    · simp [load_accounts, henb, h]
    · by_cases hp : env.poolOk = true
      · simp [load_accounts, henb, hp, h]
      · simp only [Bool.not_eq_true] at hp
        simp [load_accounts, henb, hp]
  · intro env' E' h
    simp [load_accounts, h]

/-- Witness for C10: enabled environment whose first statement fails;
the result is `none`, as for the disabled environment. -/
theorem load_accounts_failure_is_none_witness :
    (load_accounts ⟨true, true, fun _ => false⟩ [⟨[Json.str "y"], 1, 1⟩]).1 = none ∧
      ∀ (env' : DbEnv) (E' : Table), env'.enabled = false →
        (load_accounts env' E').1 = none :=
  load_accounts_failure_is_none ⟨true, true, fun _ => false⟩ [⟨[Json.str "y"], 1, 1⟩]
    rfl (Or.inr rfl)

/-!
The pool-creation step relation.  All database coroutines run on the
single background event loop, so they interleave only at `await`
points.  `_get_pool` suspends at: acquiring `_db_pool_lock`,
`asyncpg.create_pool(...)`, and `_init_tables(...)`; everything between
two suspension points is atomic.  The lazy `_db_pool_lock = asyncio.Lock()`
assignment contains no `await`, so it is part of the first atomic block
and needs no state of its own.

Crucially, `storage.py` line 77 assigns the module global `_db_pool`
the moment `create_pool` completes — before `_init_tables` is awaited —
and the fast path at line 65 reads `_db_pool` without the lock.
-/

/-- Outcome environment of `_get_pool`: connection string present,
`asyncpg.create_pool` succeeds, `_init_tables` succeeds. -/
structure PoolEnv where
  urlSet : Bool
  createOk : Bool
  initOk : Bool

/-- Control point of one coroutine executing `_get_pool`. -/
inductive PPc where
  | pstart
  | pwait
  | pcreating
  | pinit (p : Nat)
  | pret (p : Nat)
  | perr
deriving Repr, DecidableEq

/-- Shared state: the module globals of `storage.py` (`_db_pool`,
`_db_pool_lock` ownership), whether `_init_tables` has completed for
the published pool, a counter of successful `create_pool` calls, and
each coroutine's control point. -/
structure PoolSt (m : Nat) where
  gPool : Option Nat
  plock : Option (Fin m)
  initDone : Bool
  created : Nat
  pcs : Fin m → PPc

/-- Every coroutine about to call `_get_pool`; no pool, lock free. -/
def poolInit (m : Nat) : PoolSt m := ⟨none, none, false, 0, fun _ => PPc.pstart⟩

/-- One interleaving step of `m` coroutines running `_get_pool`. -/
inductive PStep (m : Nat) (env : PoolEnv) : PoolSt m → PoolSt m → Prop where
  | fast_ret (σ : PoolSt m) (i : Fin m) (p : Nat) :
      σ.pcs i = PPc.pstart → σ.gPool = some p →
      PStep m env σ { σ with pcs := Function.update σ.pcs i (PPc.pret p) }
  | to_wait (σ : PoolSt m) (i : Fin m) :
      σ.pcs i = PPc.pstart → σ.gPool = none →
      PStep m env σ { σ with pcs := Function.update σ.pcs i PPc.pwait }
  | acquire_ret (σ : PoolSt m) (i : Fin m) (p : Nat) :
      σ.pcs i = PPc.pwait → σ.plock = none → σ.gPool = some p →
      PStep m env σ { σ with pcs := Function.update σ.pcs i (PPc.pret p) }
  | acquire_nourl (σ : PoolSt m) (i : Fin m) :
      σ.pcs i = PPc.pwait → σ.plock = none → σ.gPool = none → env.urlSet = false →
      PStep m env σ { σ with pcs := Function.update σ.pcs i PPc.perr }
  | acquire_create (σ : PoolSt m) (i : Fin m) :
      σ.pcs i = PPc.pwait → σ.plock = none → σ.gPool = none → env.urlSet = true →
      PStep m env σ { σ with plock := some i, pcs := Function.update σ.pcs i PPc.pcreating }
  | create_ok (σ : PoolSt m) (i : Fin m) :
      σ.pcs i = PPc.pcreating → env.createOk = true →
      PStep m env σ { σ with gPool := some σ.created, created := σ.created + 1, pcs := Function.update σ.pcs i (PPc.pinit σ.created) }
  | create_fail (σ : PoolSt m) (i : Fin m) :
      σ.pcs i = PPc.pcreating → env.createOk = false →
      PStep m env σ { σ with plock := none, pcs := Function.update σ.pcs i PPc.perr }
  | init_ok (σ : PoolSt m) (i : Fin m) (p : Nat) :
      σ.pcs i = PPc.pinit p → env.initOk = true →
      PStep m env σ { σ with initDone := true, plock := none, pcs := Function.update σ.pcs i (PPc.pret p) }
  | init_fail (σ : PoolSt m) (i : Fin m) (p : Nat) :
      σ.pcs i = PPc.pinit p → env.initOk = false →
      PStep m env σ { σ with plock := none, pcs := Function.update σ.pcs i PPc.perr }

/-- Reachability of the pool machine from its initial state. -/
inductive PReach (m : Nat) (env : PoolEnv) : PoolSt m → Prop where
  | refl : PReach m env (poolInit m)
  | step {σ σ' : PoolSt m} : PReach m env σ → PStep m env σ σ' → PReach m env σ'

/-- The fully-working environment for `_get_pool`. -/
def poolGoodEnv : PoolEnv := ⟨true, true, true⟩

/-- Trace state: the single client has entered the lock queue. -/
def pw1 : PoolSt 1 := { poolInit 1 with pcs := Function.update (poolInit 1).pcs 0 PPc.pwait }

/-- Trace state: lock held, `create_pool` in flight. -/
def pw2 : PoolSt 1 := { pw1 with plock := some 0, pcs := Function.update pw1.pcs 0 PPc.pcreating }

/-- Trace state: `create_pool` completed — `_db_pool` is already
published while `_init_tables` has not yet run. -/
def pw3 : PoolSt 1 := { pw2 with gPool := some pw2.created, created := pw2.created + 1, pcs := Function.update pw2.pcs 0 (PPc.pinit pw2.created) }

/-- Trace state: `_init_tables` completed, the call returns pool 0. -/
def pw4 : PoolSt 1 := { pw3 with initDone := true, plock := none, pcs := Function.update pw3.pcs 0 (PPc.pret 0) }

theorem pw3_reach : PReach 1 poolGoodEnv pw3 :=
  PReach.step
    (PReach.step
      (PReach.step PReach.refl (PStep.to_wait (poolInit 1) 0 rfl rfl))
      (PStep.acquire_create pw1 0 rfl rfl rfl rfl))
    (PStep.create_ok pw2 0 rfl rfl)

/-- C3 counterexample: the schema-before-publication invariant fails.
In the pool-creation step relation there is a reachable state (after
`create_pool` completes, before `_init_tables` runs — `storage.py`
line 77 assigns the global `_db_pool` first) where `_db_pool` is
non-null and schema bootstrap has not completed. -/
theorem get_pool_publish_before_init_cex :
    ¬ (∀ σ : PoolSt 1, PReach 1 poolGoodEnv σ →
        σ.gPool ≠ none → σ.initDone = true) := by
  intro hclaim
  have hend := hclaim pw3 pw3_reach (by decide)
  have : pw3.initDone = false := rfl
  rw [this] at hend
  cases hend

/-- Single-client invariant: bootstrap incomplete means the pool is
unpublished or the client is still inside `_init_tables`, and a client
that has returned saw a completed bootstrap. -/
def InvC3 (σ : PoolSt 1) : Prop :=
  (σ.initDone = false → σ.gPool = none ∨ ∃ p, σ.pcs 0 = PPc.pinit p) ∧
  (∀ p, σ.pcs 0 = PPc.pret p → σ.initDone = true)

theorem invC3_step (env : PoolEnv) (henv : env.initOk = true) (σ σ' : PoolSt 1)
    (hs : PStep 1 env σ σ') (hinv : InvC3 σ) : InvC3 σ' := by
  obtain ⟨h1, h2⟩ := hinv
  cases hs with
  | fast_ret i p hpc hpool =>
    have hi : i = 0 := Subsingleton.elim i 0
    subst hi
    have hdone : σ.initDone = true := by
      by_contra hf
      rcases h1 (by simpa using hf) with hnone | ⟨q, hq⟩
      · rw [hnone] at hpool; cases hpool
      · rw [hpc] at hq; cases hq
    exact ⟨fun hf => (by rw [hdone] at hf; cases hf), fun q _ => hdone⟩
  | to_wait i hpc hpool =>
    have hi : i = 0 := Subsingleton.elim i 0
    subst hi
    refine ⟨fun hf => ?_, fun q hq => ?_⟩
    · rcases h1 hf with hnone | ⟨q, hq⟩
      · exact Or.inl hnone
      · rw [hpc] at hq; cases hq
    · simp [Function.update] at hq
  | acquire_ret i p hpc hlock hpool =>
    have hi : i = 0 := Subsingleton.elim i 0
    subst hi
    have hdone : σ.initDone = true := by
      by_contra hf
      rcases h1 (by simpa using hf) with hnone | ⟨q, hq⟩
      · rw [hnone] at hpool; cases hpool
      · rw [hpc] at hq; cases hq
    exact ⟨fun hf => (by rw [hdone] at hf; cases hf), fun q _ => hdone⟩
  | acquire_nourl i hpc hlock hpool hurl =>
    have hi : i = 0 := Subsingleton.elim i 0
    subst hi
    refine ⟨fun hf => Or.inl hpool, fun q hq => ?_⟩
    simp [Function.update] at hq
  | acquire_create i hpc hlock hpool hurl =>
    have hi : i = 0 := Subsingleton.elim i 0
    subst hi
    refine ⟨fun hf => Or.inl hpool, fun q hq => ?_⟩
    simp [Function.update] at hq
  | create_ok i hpc hok =>
    have hi : i = 0 := Subsingleton.elim i 0
    subst hi
    refine ⟨fun hf => Or.inr ⟨σ.created, by simp [Function.update]⟩, fun q hq => ?_⟩
    simp [Function.update] at hq
  | create_fail i hpc hok =>
    have hi : i = 0 := Subsingleton.elim i 0
    subst hi
    refine ⟨fun hf => ?_, fun q hq => ?_⟩
    · rcases h1 hf with hnone | ⟨q, hq⟩
      · exact Or.inl hnone
      · rw [hpc] at hq; cases hq
    · simp [Function.update] at hq
  | init_ok i p hpc hok =>
    have hi : i = 0 := Subsingleton.elim i 0
    subst hi
    exact ⟨fun hf => (by cases hf), fun q _ => rfl⟩
  | init_fail i p hpc hok =>
    rw [henv] at hok
    cases hok

theorem invC3_reach (env : PoolEnv) (henv : env.initOk = true) (σ : PoolSt 1)
    (h : PReach 1 env σ) : InvC3 σ := by
  induction h with
  | refl =>
    refine ⟨fun _ => Or.inl rfl, fun q hq => ?_⟩
    cases hq
  | step hr hs ih => exact invC3_step env henv _ _ hs ih

/-- C3 amended: whenever the bootstrap can succeed, the call of
`_get_pool` that creates the pool completes `_init_tables` before it
returns; but the pool reference is published to `_db_pool` before the
bootstrap (see the counterexample), so a state with a non-null pool and
no schema is reachable during (or, on bootstrap failure, after) the
creating call. -/
theorem get_pool_init_before_return (env : PoolEnv) (henv : env.initOk = true)
    (σ : PoolSt 1) (hreach : PReach 1 env σ) (p : Nat)
    (hret : σ.pcs 0 = PPc.pret p) : σ.initDone = true :=
  (invC3_reach env henv σ hreach).2 p hret

/-- Witness for C3's amended theorem: the full successful trace ends
with the client returning pool 0 and the bootstrap done. -/
theorem get_pool_init_before_return_witness : pw4.initDone = true :=
  get_pool_init_before_return poolGoodEnv rfl pw4
    (PReach.step pw3_reach (PStep.init_ok pw3 0 0 rfl rfl)) 0 rfl

theorem update_self {m : Nat} {β : Type} (f : Fin m → β) (i : Fin m) (v : β) :
    Function.update f i v i = v := by
  simp [Function.update]

theorem update_ne {m : Nat} {β : Type} (f : Fin m → β) (i j : Fin m) (v : β)
    (h : j ≠ i) : Function.update f i v j = f j := by
  simp [Function.update, h]

/-- The environment where `create_pool` succeeds but `_init_tables`
fails (e.g. no DDL permission): creation succeeds, bootstrap raises. -/
def poolInitFailEnv : PoolEnv := ⟨true, true, false⟩

/-- Trace state (two clients): client 0 queued on the lock. -/
def q1 : PoolSt 2 := { poolInit 2 with pcs := Function.update (poolInit 2).pcs 0 PPc.pwait }

/-- Trace state: client 0 holds the lock, `create_pool` in flight. -/
def q2 : PoolSt 2 := { q1 with plock := some 0, pcs := Function.update q1.pcs 0 PPc.pcreating }

/-- Trace state: pool published, `_init_tables` in flight. -/
def q3 : PoolSt 2 := { q2 with gPool := some q2.created, created := q2.created + 1, pcs := Function.update q2.pcs 0 (PPc.pinit q2.created) }

/-- Trace state: `_init_tables` failed; the exception propagates out of
client 0, yet the global `_db_pool` still holds the broken pool. -/
def q4 : PoolSt 2 := { q3 with plock := none, pcs := Function.update q3.pcs 0 PPc.perr }

/-- Trace state: client 1, calling later, takes the unlocked fast path
and returns the pool whose schema bootstrap never completed. -/
def q5 : PoolSt 2 := { q4 with pcs := Function.update q4.pcs 1 (PPc.pret 0) }

/-- C4 counterexample: a failure of schema bootstrap (which is part of
creation) IS cached.  After `_init_tables` fails, the pool reference
remains published; a subsequent call returns that broken pool (client 1
ends at `pret 0`) without retrying creation (the creation counter is
still 1) and with the schema still missing. -/
theorem get_pool_init_failure_cached_cex :
    PReach 2 poolInitFailEnv q5 ∧ q5.pcs 1 = PPc.pret 0 ∧ q5.created = 1 ∧
      q5.initDone = false ∧ q5.gPool = some 0 := by
  refine ⟨?_, rfl, rfl, rfl, rfl⟩
  exact PReach.step
    (PReach.step
      (PReach.step
        (PReach.step
          (PReach.step PReach.refl (PStep.to_wait (poolInit 2) 0 rfl rfl))
          (PStep.acquire_create q1 0 rfl rfl rfl rfl))
        (PStep.create_ok q2 0 rfl rfl))
      (PStep.init_fail q3 0 0 rfl rfl))
    (PStep.fast_ret q4 1 0 rfl rfl)

/-- Invariant under a failing `create_pool`: nothing is ever published
or constructed, and no call ever returns a pool. -/
def InvC4 {m : Nat} (σ : PoolSt m) : Prop :=
  σ.gPool = none ∧ σ.created = 0 ∧
    ∀ i : Fin m, (∀ p, σ.pcs i ≠ PPc.pret p) ∧ (∀ p, σ.pcs i ≠ PPc.pinit p)

theorem invC4_step {m : Nat} (env : PoolEnv) (hc : env.createOk = false)
    (σ σ' : PoolSt m) (hs : PStep m env σ σ') (hinv : InvC4 σ) : InvC4 σ' := by
  obtain ⟨hg, hn, hpc⟩ := hinv
  cases hs with
  | fast_ret i p hpci hpool => rw [hg] at hpool; cases hpool
  | to_wait i hpci hpool =>
    refine ⟨hg, hn, fun j => ?_⟩
    by_cases hj : j = i
    · subst hj
      dsimp only
      rw [update_self]
      exact ⟨fun p h => (by cases h), fun p h => (by cases h)⟩
    · dsimp only
      rw [update_ne _ _ _ _ hj]
      exact hpc j
  | acquire_ret i p hpci hlock hpool => rw [hg] at hpool; cases hpool
  | acquire_nourl i hpci hlock hpool hurl =>
    refine ⟨hg, hn, fun j => ?_⟩
    by_cases hj : j = i
    · subst hj
      dsimp only
      rw [update_self]
      exact ⟨fun p h => (by cases h), fun p h => (by cases h)⟩
    · dsimp only
      rw [update_ne _ _ _ _ hj]
      exact hpc j
  | acquire_create i hpci hlock hpool hurl =>
    refine ⟨hg, hn, fun j => ?_⟩
    by_cases hj : j = i
    · subst hj
      dsimp only
      rw [update_self]
      exact ⟨fun p h => (by cases h), fun p h => (by cases h)⟩
    · dsimp only
      rw [update_ne _ _ _ _ hj]
      exact hpc j
  | create_ok i hpci hok => rw [hc] at hok; cases hok
  | create_fail i hpci hok =>
    refine ⟨hg, hn, fun j => ?_⟩
    by_cases hj : j = i
    · subst hj
      dsimp only
      rw [update_self]
      exact ⟨fun p h => (by cases h), fun p h => (by cases h)⟩
    · dsimp only
      rw [update_ne _ _ _ _ hj]
      exact hpc j
  | init_ok i p hpci hok => exact absurd hpci ((hpc i).2 p)
  | init_fail i p hpci hok => exact absurd hpci ((hpc i).2 p)

/-- C4 amended: a failure of pool construction itself (missing driver,
unreachable database, auth failure — `asyncpg.create_pool` raising) is
not cached: no pool reference is ever published, nothing is constructed,
and no caller ever receives a pool, so every subsequent call re-enters
the full creation path.  A schema-bootstrap failure, by contrast, leaves
the broken pool cached (see the counterexample). -/
theorem get_pool_create_failure_not_cached {m : Nat} (env : PoolEnv)
    (hc : env.createOk = false) (σ : PoolSt m) (hreach : PReach m env σ) :
    σ.gPool = none ∧ σ.created = 0 ∧ ∀ (i : Fin m) (p : Nat), σ.pcs i ≠ PPc.pret p := by
  have hinv : InvC4 σ := by
    induction hreach with
    | refl => exact ⟨rfl, rfl, fun i => ⟨fun p h => (by cases h), fun p h => (by cases h)⟩⟩
    | step hr hs ih => exact invC4_step env hc _ _ hs ih
  exact ⟨hinv.1, hinv.2.1, fun i p => (hinv.2.2 i).1 p⟩

/-- The environment where `asyncpg.create_pool` itself fails. -/
def poolCreateFailEnv : PoolEnv := ⟨true, false, true⟩

/-- Trace state: the single client queued on the lock (failing driver). -/
def w1 : PoolSt 1 := { poolInit 1 with pcs := Function.update (poolInit 1).pcs 0 PPc.pwait }

/-- Trace state: `create_pool` in flight (it will fail). -/
def w2 : PoolSt 1 := { w1 with plock := some 0, pcs := Function.update w1.pcs 0 PPc.pcreating }

/-- Trace state: `create_pool` raised; nothing published. -/
def w3 : PoolSt 1 := { w2 with plock := none, pcs := Function.update w2.pcs 0 PPc.perr }

/-- Witness for C4's amended theorem: after a failed construction the
pool is still unpublished, the construction counter is 0, and no caller
holds a pool. -/
theorem get_pool_create_failure_not_cached_witness :
    w3.gPool = none ∧ w3.created = 0 ∧ ∀ (i : Fin 1) (p : Nat), w3.pcs i ≠ PPc.pret p :=
  get_pool_create_failure_not_cached poolCreateFailEnv rfl w3
    (PReach.step
      (PReach.step
        (PReach.step PReach.refl (PStep.to_wait (poolInit 1) 0 rfl rfl))
        (PStep.acquire_create w1 0 rfl rfl rfl rfl))
      (PStep.create_fail w2 0 rfl rfl))

/-- A coroutine holding the creation critical section of `_get_pool`. -/
def critP (pc : PPc) : Prop := pc = PPc.pcreating ∨ ∃ p, pc = PPc.pinit p

/-- Singleton-pool invariant, valid for every environment: the lock
guards the creation section, a pool is constructed at most once, and
every returned pool is the unique pool 0. -/
def InvC5P {m : Nat} (σ : PoolSt m) : Prop :=
  (∀ i : Fin m, critP (σ.pcs i) → σ.plock = some i) ∧
  (∀ i : Fin m, σ.pcs i = PPc.pcreating → σ.gPool = none ∧ σ.created = 0) ∧
  (∀ (i : Fin m) (p : Nat), σ.pcs i = PPc.pinit p →
    p = 0 ∧ σ.gPool = some 0 ∧ σ.created = 1) ∧
  ((σ.gPool = none ∧ σ.created = 0) ∨ (σ.gPool = some 0 ∧ σ.created = 1)) ∧
  (∀ (i : Fin m) (p : Nat), σ.pcs i = PPc.pret p → p = 0)

theorem invC5P_step {m : Nat} (env : PoolEnv) (σ σ' : PoolSt m)
    (hs : PStep m env σ σ') (hinv : InvC5P σ) : InvC5P σ' := by
  obtain ⟨hmux, hcre, hini, hglob, hret⟩ := hinv
  cases hs with
  | fast_ret i p hpc hpool =>
    have hp0 : p = 0 := by
      rcases hglob with ⟨hg, _⟩ | ⟨hg, _⟩
      · rw [hg] at hpool; cases hpool
      · rw [hg] at hpool; exact (Option.some.inj hpool).symm
    refine ⟨fun j hj => ?_, fun j hj => ?_, fun j q hj => ?_, hglob, fun j q hj => ?_⟩
    · dsimp only at hj ⊢
      by_cases hji : j = i
      · subst hji; rw [update_self] at hj
        rcases hj with h | ⟨q, h⟩ <;> cases h
      · rw [update_ne _ _ _ _ hji] at hj; exact hmux j hj
    · dsimp only at hj ⊢
      by_cases hji : j = i
      · subst hji; rw [update_self] at hj; cases hj
      · rw [update_ne _ _ _ _ hji] at hj; exact hcre j hj
    · dsimp only at hj ⊢
      by_cases hji : j = i
      · subst hji; rw [update_self] at hj; cases hj
      · rw [update_ne _ _ _ _ hji] at hj; exact hini j q hj
    · dsimp only at hj
      by_cases hji : j = i
      · subst hji; rw [update_self] at hj
        cases hj; exact hp0
      · rw [update_ne _ _ _ _ hji] at hj; exact hret j q hj
  | to_wait i hpc hpool =>
    refine ⟨fun j hj => ?_, fun j hj => ?_, fun j q hj => ?_, hglob, fun j q hj => ?_⟩
    all_goals dsimp only at hj ⊢
    all_goals by_cases hji : j = i
    · subst hji; rw [update_self] at hj
      rcases hj with h | ⟨q, h⟩ <;> cases h
    · rw [update_ne _ _ _ _ hji] at hj; exact hmux j hj
    · subst hji; rw [update_self] at hj; cases hj
    · rw [update_ne _ _ _ _ hji] at hj; exact hcre j hj
    · subst hji; rw [update_self] at hj; cases hj
    · rw [update_ne _ _ _ _ hji] at hj; exact hini j q hj
    · subst hji; rw [update_self] at hj; cases hj
    · rw [update_ne _ _ _ _ hji] at hj; exact hret j q hj
  | acquire_ret i p hpc hlock hpool =>
    have hp0 : p = 0 := by
      rcases hglob with ⟨hg, _⟩ | ⟨hg, _⟩
      · rw [hg] at hpool; cases hpool
      · rw [hg] at hpool; exact (Option.some.inj hpool).symm
    refine ⟨fun j hj => ?_, fun j hj => ?_, fun j q hj => ?_, hglob, fun j q hj => ?_⟩
    all_goals dsimp only at hj ⊢
    all_goals by_cases hji : j = i
    · subst hji; rw [update_self] at hj
      rcases hj with h | ⟨q, h⟩ <;> cases h
    · rw [update_ne _ _ _ _ hji] at hj; exact hmux j hj
    · subst hji; rw [update_self] at hj; cases hj
    · rw [update_ne _ _ _ _ hji] at hj; exact hcre j hj
    · subst hji; rw [update_self] at hj; cases hj
    · rw [update_ne _ _ _ _ hji] at hj; exact hini j q hj
    · subst hji; rw [update_self] at hj; cases hj; exact hp0
    · rw [update_ne _ _ _ _ hji] at hj; exact hret j q hj
  | acquire_nourl i hpc hlock hpool hurl =>
    refine ⟨fun j hj => ?_, fun j hj => ?_, fun j q hj => ?_, hglob, fun j q hj => ?_⟩
    all_goals dsimp only at hj ⊢
    all_goals by_cases hji : j = i
    · subst hji; rw [update_self] at hj
      rcases hj with h | ⟨q, h⟩ <;> cases h
    · rw [update_ne _ _ _ _ hji] at hj; exact hmux j hj
    · subst hji; rw [update_self] at hj; cases hj
    · rw [update_ne _ _ _ _ hji] at hj; exact hcre j hj
    · subst hji; rw [update_self] at hj; cases hj
    · rw [update_ne _ _ _ _ hji] at hj; exact hini j q hj
    · subst hji; rw [update_self] at hj; cases hj
    · rw [update_ne _ _ _ _ hji] at hj; exact hret j q hj
  | acquire_create i hpc hlock hpool hurl =>
    have hnocrit : ∀ j : Fin m, ¬ critP (σ.pcs j) := by
      intro j hj
      have := hmux j hj
      rw [hlock] at this
      cases this
    have hcr0 : σ.created = 0 := by
      rcases hglob with ⟨_, h0⟩ | ⟨hg, _⟩
      · exact h0
      · rw [hg] at hpool; cases hpool
    refine ⟨fun j hj => ?_, fun j hj => ?_, fun j q hj => ?_, hglob, fun j q hj => ?_⟩
    all_goals dsimp only at hj ⊢
    · by_cases hji : j = i
      · subst hji; rfl
      · rw [update_ne _ _ _ _ hji] at hj
        exact absurd hj (hnocrit j)
    · by_cases hji : j = i
      · subst hji; exact ⟨hpool, hcr0⟩
      · rw [update_ne _ _ _ _ hji] at hj
        exact absurd (Or.inl hj) (hnocrit j)
    · by_cases hji : j = i
      · subst hji; rw [update_self] at hj; cases hj
      · rw [update_ne _ _ _ _ hji] at hj
        exact absurd (Or.inr ⟨q, hj⟩) (hnocrit j)
    · by_cases hji : j = i
      · subst hji; rw [update_self] at hj; cases hj
      · rw [update_ne _ _ _ _ hji] at hj; exact hret j q hj
  | create_ok i hpc hok =>
    obtain ⟨hgn, hc0⟩ := hcre i hpc
    have hlck := hmux i (Or.inl hpc)
    refine ⟨fun j hj => ?_, fun j hj => ?_, fun j q hj => ?_, ?_, fun j q hj => ?_⟩
    all_goals first | (dsimp only at hj ⊢) | (dsimp only)
    · by_cases hji : j = i
      · subst hji; exact hlck
      · rw [update_ne _ _ _ _ hji] at hj; exact hmux j hj
    · by_cases hji : j = i
      · subst hji; rw [update_self] at hj; cases hj
      · rw [update_ne _ _ _ _ hji] at hj
        have := hmux j (Or.inl hj)
        rw [hlck] at this
        exact absurd (Option.some.inj this).symm hji
    · by_cases hji : j = i
      · subst hji; rw [update_self] at hj
        cases hj
        rw [hc0]
        exact ⟨rfl, rfl, rfl⟩
      · rw [update_ne _ _ _ _ hji] at hj
        have := hmux j (Or.inr ⟨q, hj⟩)
        rw [hlck] at this
        exact absurd (Option.some.inj this).symm hji
    · rw [hc0]
      exact Or.inr ⟨rfl, rfl⟩
    · by_cases hji : j = i
      · subst hji; rw [update_self] at hj; cases hj
      · rw [update_ne _ _ _ _ hji] at hj; exact hret j q hj
  | create_fail i hpc hok =>
    have hnoothercrit : ∀ j : Fin m, j ≠ i → ¬ critP (σ.pcs j) := by
      intro j hji hj
      have h1 := hmux j hj
      have h2 := hmux i (Or.inl hpc)
      rw [h2] at h1
      exact hji (Option.some.inj h1).symm
    refine ⟨fun j hj => ?_, fun j hj => ?_, fun j q hj => ?_, hglob, fun j q hj => ?_⟩
    all_goals dsimp only at hj ⊢
    · by_cases hji : j = i
      · subst hji; rw [update_self] at hj
        rcases hj with h | ⟨q, h⟩ <;> cases h
      · rw [update_ne _ _ _ _ hji] at hj
        exact absurd hj (hnoothercrit j hji)
    · by_cases hji : j = i
      · subst hji; rw [update_self] at hj; cases hj
      · rw [update_ne _ _ _ _ hji] at hj
        exact absurd (Or.inl hj) (hnoothercrit j hji)
    · by_cases hji : j = i
      · subst hji; rw [update_self] at hj; cases hj
      · rw [update_ne _ _ _ _ hji] at hj
        exact absurd (Or.inr ⟨q, hj⟩) (hnoothercrit j hji)
    · by_cases hji : j = i
      · subst hji; rw [update_self] at hj; cases hj
      · rw [update_ne _ _ _ _ hji] at hj; exact hret j q hj
  | init_ok i p hpc hok =>
    obtain ⟨hp0, hgp, hc1⟩ := hini i p hpc
    have hnoothercrit : ∀ j : Fin m, j ≠ i → ¬ critP (σ.pcs j) := by
      intro j hji hj
      have h1 := hmux j hj
      have h2 := hmux i (Or.inr ⟨p, hpc⟩)
      rw [h2] at h1
      exact hji (Option.some.inj h1).symm
    refine ⟨fun j hj => ?_, fun j hj => ?_, fun j q hj => ?_, hglob, fun j q hj => ?_⟩
    all_goals dsimp only at hj ⊢
    · by_cases hji : j = i
      · subst hji; rw [update_self] at hj
        rcases hj with h | ⟨q, h⟩ <;> cases h
      · rw [update_ne _ _ _ _ hji] at hj
        exact absurd hj (hnoothercrit j hji)
    · by_cases hji : j = i
      · subst hji; rw [update_self] at hj; cases hj
      · rw [update_ne _ _ _ _ hji] at hj
        exact absurd (Or.inl hj) (hnoothercrit j hji)
    · by_cases hji : j = i
      · subst hji; rw [update_self] at hj; cases hj
      · rw [update_ne _ _ _ _ hji] at hj
        exact absurd (Or.inr ⟨q, hj⟩) (hnoothercrit j hji)
    · by_cases hji : j = i
      · subst hji; rw [update_self] at hj
        cases hj
        exact hp0
      · rw [update_ne _ _ _ _ hji] at hj; exact hret j q hj
  | init_fail i p hpc hok =>
    have hnoothercrit : ∀ j : Fin m, j ≠ i → ¬ critP (σ.pcs j) := by
      intro j hji hj
      have h1 := hmux j hj
      have h2 := hmux i (Or.inr ⟨p, hpc⟩)
      rw [h2] at h1
      exact hji (Option.some.inj h1).symm
    refine ⟨fun j hj => ?_, fun j hj => ?_, fun j q hj => ?_, hglob, fun j q hj => ?_⟩
    all_goals dsimp only at hj ⊢
    · by_cases hji : j = i
      · subst hji; rw [update_self] at hj
        rcases hj with h | ⟨q, h⟩ <;> cases h
      · rw [update_ne _ _ _ _ hji] at hj
        exact absurd hj (hnoothercrit j hji)
    · by_cases hji : j = i
      · subst hji; rw [update_self] at hj; cases hj
      · rw [update_ne _ _ _ _ hji] at hj
        exact absurd (Or.inl hj) (hnoothercrit j hji)
    · by_cases hji : j = i
      · subst hji; rw [update_self] at hj; cases hj
      · rw [update_ne _ _ _ _ hji] at hj
        exact absurd (Or.inr ⟨q, hj⟩) (hnoothercrit j hji)
    · by_cases hji : j = i
      · subst hji; rw [update_self] at hj; cases hj
      · rw [update_ne _ _ _ _ hji] at hj; exact hret j q hj

theorem invC5P_reach {m : Nat} (env : PoolEnv) (σ : PoolSt m)
    (h : PReach m env σ) : InvC5P σ := by
  induction h with
  | refl =>
    refine ⟨fun i hi => ?_, fun i hi => ?_, fun i p hi => ?_, Or.inl ⟨rfl, rfl⟩,
      fun i p hi => ?_⟩
    · rcases hi with h | ⟨p, h⟩ <;> cases h
    · cases hi
    · cases hi
    · cases hi
  | step hr hs ih => exact invC5P_step env _ _ hs ih

/-!
The worker-loop step relation.  `_ensure_db_loop` runs on ordinary
threads (preemptive), guarded by the module mutex `_db_loop_lock`.  The
unlocked fast path reads `_db_loop` and `_db_thread` and calls
`is_alive()`; the locked slow path re-checks, then creates the event
loop, starts the worker thread, assigns `_db_loop`, assigns
`_db_thread`, and returns `_db_loop` — in that program order.  Worker
threads never terminate on their own (`loop.run_forever()`), so the
model has no thread-death step.
-/

/-- Control point of one thread executing `_ensure_db_loop`. -/
inductive LPc where
  | lstart
  | lacquire
  | lrecheck
  | lstartThr (l : Nat)
  | lsetLoop (l : Nat) (t : Nat)
  | lsetThr (l : Nat) (t : Nat)
  | ldone (l : Nat)
deriving Repr, DecidableEq

/-- Shared state of `_ensure_db_loop`: the globals `_db_loop` and
`_db_thread`, ownership of `_db_loop_lock`, counters of constructed
event loops and started worker threads, liveness of each started
thread, and every thread's control point. -/
structure LoopSt (n : Nat) where
  gLoop : Option Nat
  gThr : Option Nat
  llock : Option (Fin n)
  loops : Nat
  thrs : Nat
  alive : Nat → Bool
  lpcs : Fin n → LPc

/-- The check `_db_loop and _db_thread and _db_thread.is_alive()`:
yields the loop to return, or `none` when the slow path must run. -/
def loopCheck {n : Nat} (σ : LoopSt n) : Option Nat :=
  match σ.gLoop, σ.gThr with
  | some l, some t => if σ.alive t then some l else none
  | _, _ => none

/-- All `n` threads about to call `_ensure_db_loop`. -/
def loopInit (n : Nat) : LoopSt n :=
  ⟨none, none, none, 0, 0, fun _ => false, fun _ => LPc.lstart⟩

/-- One interleaving step of `n` threads running `_ensure_db_loop`. -/
inductive LStep (n : Nat) : LoopSt n → LoopSt n → Prop where
  | lfast_ret (σ : LoopSt n) (i : Fin n) (l : Nat) :
      σ.lpcs i = LPc.lstart → loopCheck σ = some l →
      LStep n σ { σ with lpcs := Function.update σ.lpcs i (LPc.ldone l) }
  | lto_acquire (σ : LoopSt n) (i : Fin n) :
      σ.lpcs i = LPc.lstart → loopCheck σ = none →
      LStep n σ { σ with lpcs := Function.update σ.lpcs i LPc.lacquire }
  | lacquire_lock (σ : LoopSt n) (i : Fin n) :
      σ.lpcs i = LPc.lacquire → σ.llock = none →
      LStep n σ { σ with llock := some i, lpcs := Function.update σ.lpcs i LPc.lrecheck }
  | lrecheck_ret (σ : LoopSt n) (i : Fin n) (l : Nat) :
      σ.lpcs i = LPc.lrecheck → loopCheck σ = some l →
      LStep n σ { σ with llock := none, lpcs := Function.update σ.lpcs i (LPc.ldone l) }
  | lmake_loop (σ : LoopSt n) (i : Fin n) :
      σ.lpcs i = LPc.lrecheck → loopCheck σ = none →
      LStep n σ { σ with loops := σ.loops + 1, lpcs := Function.update σ.lpcs i (LPc.lstartThr σ.loops) }
  | lstart_thread (σ : LoopSt n) (i : Fin n) (l : Nat) :
      σ.lpcs i = LPc.lstartThr l →
      LStep n σ { σ with thrs := σ.thrs + 1, alive := fun x => if x = σ.thrs then true else σ.alive x, lpcs := Function.update σ.lpcs i (LPc.lsetLoop l σ.thrs) }
  | lset_loop (σ : LoopSt n) (i : Fin n) (l : Nat) (t : Nat) :
      σ.lpcs i = LPc.lsetLoop l t →
      LStep n σ { σ with gLoop := some l, lpcs := Function.update σ.lpcs i (LPc.lsetThr l t) }
  | lset_thread (σ : LoopSt n) (i : Fin n) (l : Nat) (t : Nat) :
      σ.lpcs i = LPc.lsetThr l t →
      LStep n σ { σ with gThr := some t, llock := none, lpcs := Function.update σ.lpcs i (LPc.ldone l) }

/-- Reachability of the worker-loop machine from its initial state. -/
inductive LReach (n : Nat) : LoopSt n → Prop where
  | refl : LReach n (loopInit n)
  | step {σ σ' : LoopSt n} : LReach n σ → LStep n σ σ' → LReach n σ'

/-- A thread in the creation phase (past the failed re-check). -/
def inCreate (pc : LPc) : Prop :=
  (∃ l, pc = LPc.lstartThr l) ∨ (∃ l t, pc = LPc.lsetLoop l t) ∨
    (∃ l t, pc = LPc.lsetThr l t)

/-- A thread inside the `_db_loop_lock` critical section. -/
def critL (pc : LPc) : Prop := pc = LPc.lrecheck ∨ inCreate pc

theorem loopCheck_some {n : Nat} (σ : LoopSt n) (l : Nat) (h : loopCheck σ = some l) :
    ∃ t, σ.gLoop = some l ∧ σ.gThr = some t ∧ σ.alive t = true := by
  unfold loopCheck at h
  cases hl : σ.gLoop with
  | none => rw [hl] at h; cases h
  | some l0 =>
    cases ht : σ.gThr with
    | none => rw [hl, ht] at h; cases h
    | some t0 =>
      rw [hl, ht] at h
      have h' : (if σ.alive t0 = true then some l0 else none) = some l := h
      by_cases ha : σ.alive t0 = true
      · rw [if_pos ha] at h'
        exact ⟨t0, h', rfl, ha⟩
      · rw [if_neg ha] at h'
        cases h'

theorem loopCheck_of {n : Nat} (σ : LoopSt n) (l t : Nat) (hl : σ.gLoop = some l)
    (ht : σ.gThr = some t) (ha : σ.alive t = true) : loopCheck σ = some l := by
  unfold loopCheck
  rw [hl, ht]
  show (if σ.alive t = true then some l else none) = some l
  rw [if_pos ha]

theorem not_inCreate_lstart : ¬ inCreate LPc.lstart := by
  rintro (⟨l, h⟩ | ⟨l, t, h⟩ | ⟨l, t, h⟩) <;> cases h

theorem not_inCreate_lacquire : ¬ inCreate LPc.lacquire := by
  rintro (⟨l, h⟩ | ⟨l, t, h⟩ | ⟨l, t, h⟩) <;> cases h

theorem not_inCreate_lrecheck : ¬ inCreate LPc.lrecheck := by
  rintro (⟨l, h⟩ | ⟨l, t, h⟩ | ⟨l, t, h⟩) <;> cases h

theorem not_inCreate_ldone (l0 : Nat) : ¬ inCreate (LPc.ldone l0) := by
  rintro (⟨l, h⟩ | ⟨l, t, h⟩ | ⟨l, t, h⟩) <;> cases h

theorem not_critL_lstart : ¬ critL LPc.lstart := by
  rintro (h | h)
  · cases h
  · exact not_inCreate_lstart h

theorem not_critL_lacquire : ¬ critL LPc.lacquire := by
  rintro (h | h)
  · cases h
  · exact not_inCreate_lacquire h

theorem not_critL_ldone (l0 : Nat) : ¬ critL (LPc.ldone l0) := by
  rintro (h | h)
  · cases h
  · exact not_inCreate_ldone l0 h

/-- Singleton-worker invariant: the mutex guards the whole slow path,
the creation stages pin down the counters and globals, at most one loop
and one thread are ever constructed, and every thread that returned got
loop 0. -/
def InvL {n : Nat} (σ : LoopSt n) : Prop :=
  (∀ i : Fin n, critL (σ.lpcs i) → σ.llock = some i) ∧
  (∀ (i : Fin n) (l : Nat), σ.lpcs i = LPc.lstartThr l →
    l = 0 ∧ σ.loops = 1 ∧ σ.thrs = 0 ∧ σ.gLoop = none ∧ σ.gThr = none) ∧
  (∀ (i : Fin n) (l t : Nat), σ.lpcs i = LPc.lsetLoop l t →
    l = 0 ∧ t = 0 ∧ σ.loops = 1 ∧ σ.thrs = 1 ∧ σ.gLoop = none ∧ σ.gThr = none ∧ σ.alive 0 = true) ∧
  (∀ (i : Fin n) (l t : Nat), σ.lpcs i = LPc.lsetThr l t →
    l = 0 ∧ t = 0 ∧ σ.loops = 1 ∧ σ.thrs = 1 ∧ σ.gLoop = some 0 ∧ σ.gThr = none ∧ σ.alive 0 = true) ∧
  (∀ t : Nat, σ.gThr = some t →
    t = 0 ∧ σ.gLoop = some 0 ∧ σ.alive 0 = true ∧ σ.loops = 1 ∧ σ.thrs = 1) ∧
  (∀ l : Nat, σ.gLoop = some l → l = 0 ∧ σ.loops = 1) ∧
  (σ.loops ≤ 1 ∧ σ.thrs ≤ σ.loops) ∧
  (∀ (i : Fin n) (l : Nat), σ.lpcs i = LPc.ldone l → l = 0) ∧
  (σ.loops = 1 → (∃ i : Fin n, inCreate (σ.lpcs i)) ∨ (σ.gLoop = some 0 ∧ σ.gThr = some 0))

theorem crit_unique {n : Nat} (σ : LoopSt n)
    (hmux : ∀ i : Fin n, critL (σ.lpcs i) → σ.llock = some i)
    {i j : Fin n} (hi : critL (σ.lpcs i)) (hjc : critL (σ.lpcs j)) : i = j := by
  have ha := hmux i hi
  have hb := hmux j hjc
  rw [ha] at hb
  exact Option.some.inj hb

theorem invL_step {n : Nat} (σ σ' : LoopSt n) (hs : LStep n σ σ')
    (hinv : InvL σ) : InvL σ' := by
  obtain ⟨hmux, h2, h3, h4, h5, h6, h7, h8, h9⟩ := hinv
  cases hs with
  | lfast_ret i l hpc hchk =>
    obtain ⟨t0, hgl, hgt, hal⟩ := loopCheck_some σ l hchk
    have hl0 : l = 0 := (h6 l hgl).1
    refine ⟨?_, ?_, ?_, ?_, h5, h6, h7, ?_, ?_⟩
    · intro j hj
      dsimp only at hj ⊢
      by_cases hji : j = i
      · subst hji; rw [update_self] at hj; exact absurd hj (not_critL_ldone l)
      · rw [update_ne _ _ _ _ hji] at hj; exact hmux j hj
    · intro j l' hj
      dsimp only at hj ⊢
      by_cases hji : j = i
      · subst hji; rw [update_self] at hj; cases hj
      · rw [update_ne _ _ _ _ hji] at hj; exact h2 j l' hj
    · intro j l' t' hj
      dsimp only at hj ⊢
      by_cases hji : j = i
      · subst hji; rw [update_self] at hj; cases hj
      · rw [update_ne _ _ _ _ hji] at hj; exact h3 j l' t' hj
    · intro j l' t' hj
      dsimp only at hj ⊢
      by_cases hji : j = i
      · subst hji; rw [update_self] at hj; cases hj
      · rw [update_ne _ _ _ _ hji] at hj; exact h4 j l' t' hj
    · intro j l' hj
      dsimp only at hj
      by_cases hji : j = i
      · subst hji; rw [update_self] at hj; cases hj; exact hl0
      · rw [update_ne _ _ _ _ hji] at hj; exact h8 j l' hj
    · intro hone
      rcases h9 hone with ⟨j, hcr⟩ | hg
      · left
        have hji : j ≠ i := by
          intro he
          rw [he, hpc] at hcr
          exact not_inCreate_lstart hcr
        refine ⟨j, ?_⟩
        dsimp only
        rw [update_ne _ _ _ _ hji]
        exact hcr
      · right; exact hg
  | lto_acquire i hpc hchk =>
    refine ⟨?_, ?_, ?_, ?_, h5, h6, h7, ?_, ?_⟩
    · intro j hj
      dsimp only at hj ⊢
      by_cases hji : j = i
      · subst hji; rw [update_self] at hj; exact absurd hj not_critL_lacquire
      · rw [update_ne _ _ _ _ hji] at hj; exact hmux j hj
    · intro j l' hj
      dsimp only at hj ⊢
      by_cases hji : j = i
      · subst hji; rw [update_self] at hj; cases hj
      · rw [update_ne _ _ _ _ hji] at hj; exact h2 j l' hj
    · intro j l' t' hj
      dsimp only at hj ⊢
      by_cases hji : j = i
      · subst hji; rw [update_self] at hj; cases hj
      · rw [update_ne _ _ _ _ hji] at hj; exact h3 j l' t' hj
    · intro j l' t' hj
      dsimp only at hj ⊢
      by_cases hji : j = i
      · subst hji; rw [update_self] at hj; cases hj
      · rw [update_ne _ _ _ _ hji] at hj; exact h4 j l' t' hj
    · intro j l' hj
      dsimp only at hj
      by_cases hji : j = i
      · subst hji; rw [update_self] at hj; cases hj
      · rw [update_ne _ _ _ _ hji] at hj; exact h8 j l' hj
    · intro hone
      rcases h9 hone with ⟨j, hcr⟩ | hg
      · left
        have hji : j ≠ i := by
          intro he
          rw [he, hpc] at hcr
          exact not_inCreate_lstart hcr
        refine ⟨j, ?_⟩
        dsimp only
        rw [update_ne _ _ _ _ hji]
        exact hcr
      · right; exact hg
  | lacquire_lock i hpc hlock =>
    refine ⟨?_, ?_, ?_, ?_, h5, h6, h7, ?_, ?_⟩
    · intro j hj
      dsimp only at hj ⊢
      by_cases hji : j = i
      · subst hji; rfl
      · rw [update_ne _ _ _ _ hji] at hj
        have := hmux j hj
        rw [hlock] at this
        cases this
    · intro j l' hj
      dsimp only at hj ⊢
      by_cases hji : j = i
      · subst hji; rw [update_self] at hj; cases hj
      · rw [update_ne _ _ _ _ hji] at hj; exact h2 j l' hj
    · intro j l' t' hj
      dsimp only at hj ⊢
      by_cases hji : j = i
      · subst hji; rw [update_self] at hj; cases hj
      · rw [update_ne _ _ _ _ hji] at hj; exact h3 j l' t' hj
    · intro j l' t' hj
      dsimp only at hj ⊢
      by_cases hji : j = i
      · subst hji; rw [update_self] at hj; cases hj
      · rw [update_ne _ _ _ _ hji] at hj; exact h4 j l' t' hj
    · intro j l' hj
      dsimp only at hj
      by_cases hji : j = i
      · subst hji; rw [update_self] at hj; cases hj
      · rw [update_ne _ _ _ _ hji] at hj; exact h8 j l' hj
    · intro hone
      rcases h9 hone with ⟨j, hcr⟩ | hg
      · left
        have hji : j ≠ i := by
          intro he
          rw [he, hpc] at hcr
          exact not_inCreate_lacquire hcr
        refine ⟨j, ?_⟩
        dsimp only
        rw [update_ne _ _ _ _ hji]
        exact hcr
      · right; exact hg
  | lrecheck_ret i l hpc hchk =>
    obtain ⟨t0, hgl, hgt, hal⟩ := loopCheck_some σ l hchk
    have hl0 : l = 0 := (h6 l hgl).1
    have hcriti : critL (σ.lpcs i) := Or.inl hpc
    refine ⟨?_, ?_, ?_, ?_, h5, h6, h7, ?_, ?_⟩
    · intro j hj
      dsimp only at hj ⊢
      by_cases hji : j = i
      · subst hji; rw [update_self] at hj; exact absurd hj (not_critL_ldone l)
      · rw [update_ne _ _ _ _ hji] at hj
        exact absurd (crit_unique σ hmux hj hcriti) hji
    · intro j l' hj
      dsimp only at hj ⊢
      by_cases hji : j = i
      · subst hji; rw [update_self] at hj; cases hj
      · rw [update_ne _ _ _ _ hji] at hj; exact h2 j l' hj
    · intro j l' t' hj
      dsimp only at hj ⊢
      by_cases hji : j = i
      · subst hji; rw [update_self] at hj; cases hj
      · rw [update_ne _ _ _ _ hji] at hj; exact h3 j l' t' hj
    · intro j l' t' hj
      dsimp only at hj ⊢
      by_cases hji : j = i
      · subst hji; rw [update_self] at hj; cases hj
      · rw [update_ne _ _ _ _ hji] at hj; exact h4 j l' t' hj
    · intro j l' hj
      dsimp only at hj
      by_cases hji : j = i
      · subst hji; rw [update_self] at hj; cases hj; exact hl0
      · rw [update_ne _ _ _ _ hji] at hj; exact h8 j l' hj
    · intro hone
      rcases h9 hone with ⟨j, hcr⟩ | hg
      · left
        have hji : j ≠ i := by
          intro he
          rw [he, hpc] at hcr
          exact not_inCreate_lrecheck hcr
        refine ⟨j, ?_⟩
        dsimp only
        rw [update_ne _ _ _ _ hji]
        exact hcr
      · right; exact hg
  | lmake_loop i hpc hchk =>
    have hcriti : critL (σ.lpcs i) := Or.inl hpc
    have hloops0 : σ.loops = 0 := by
      by_contra h0
      have hone : σ.loops = 1 := by omega
      rcases h9 hone with ⟨j, hcr⟩ | ⟨hgl, hgt⟩
      · have hij : i = j := crit_unique σ hmux hcriti (Or.inr hcr)
        rw [← hij, hpc] at hcr
        exact not_inCreate_lrecheck hcr
      · have hx := h5 0 hgt
        have hchk' := loopCheck_of σ 0 0 hgl hgt hx.2.2.1
        rw [hchk] at hchk'
        cases hchk'
    have hgl : σ.gLoop = none := by
      cases hgl : σ.gLoop with
      | none => rfl
      | some l0 =>
        have := (h6 l0 hgl).2
        omega
    have hgt : σ.gThr = none := by
      cases hgt : σ.gThr with
      | none => rfl
      | some t0 =>
        have := (h5 t0 hgt).2.2.2.1
        omega
    have hthrs0 : σ.thrs = 0 := by
      have := h7.2
      omega
    refine ⟨?_, ?_, ?_, ?_, ?_, ?_, ?_, ?_, ?_⟩
    · intro j hj
      dsimp only at hj ⊢
      by_cases hji : j = i
      · subst hji; exact hmux j hcriti
      · rw [update_ne _ _ _ _ hji] at hj; exact hmux j hj
    · intro j l' hj
      dsimp only at hj ⊢
      by_cases hji : j = i
      · subst hji; rw [update_self] at hj
        cases hj
        exact ⟨hloops0, by omega, hthrs0, hgl, hgt⟩
      · rw [update_ne _ _ _ _ hji] at hj
        have := (h2 j l' hj).2.1
        omega
    · intro j l' t' hj
      dsimp only at hj ⊢
      by_cases hji : j = i
      · subst hji; rw [update_self] at hj; cases hj
      · rw [update_ne _ _ _ _ hji] at hj
        have := (h3 j l' t' hj).2.2.1
        omega
    · intro j l' t' hj
      dsimp only at hj ⊢
      by_cases hji : j = i
      · subst hji; rw [update_self] at hj; cases hj
      · rw [update_ne _ _ _ _ hji] at hj
        have := (h4 j l' t' hj).2.2.1
        omega
    · intro t' ht'
      dsimp only at ht'
      rw [hgt] at ht'
      cases ht'
    · intro l' hl'
      dsimp only at hl'
      rw [hgl] at hl'
      cases hl'
    · dsimp only
      omega
    · intro j l' hj
      dsimp only at hj
      by_cases hji : j = i
      · subst hji; rw [update_self] at hj; cases hj
      · rw [update_ne _ _ _ _ hji] at hj; exact h8 j l' hj
    · intro _
      left
      refine ⟨i, ?_⟩
      dsimp only
      rw [update_self]
      exact Or.inl ⟨σ.loops, rfl⟩
  | lstart_thread i l hpc =>
    obtain ⟨hl0, hloops1, hthrs0, hgl, hgt⟩ := h2 i l hpc
    have hcriti : critL (σ.lpcs i) := Or.inr (Or.inl ⟨l, hpc⟩)
    refine ⟨?_, ?_, ?_, ?_, ?_, ?_, ?_, ?_, ?_⟩
    · intro j hj
      dsimp only at hj ⊢
      by_cases hji : j = i
      · subst hji; exact hmux j hcriti
      · rw [update_ne _ _ _ _ hji] at hj; exact hmux j hj
    · intro j l' hj
      dsimp only at hj ⊢
      by_cases hji : j = i
      · subst hji; rw [update_self] at hj; cases hj
      · rw [update_ne _ _ _ _ hji] at hj
        exact absurd (crit_unique σ hmux (Or.inr (Or.inl ⟨l', hj⟩)) hcriti) hji
    · intro j l' t' hj
      dsimp only at hj ⊢
      by_cases hji : j = i
      · subst hji; rw [update_self] at hj
        cases hj
        refine ⟨hl0, hthrs0, hloops1, by omega, hgl, hgt, ?_⟩
        rw [hthrs0]
        simp
      · rw [update_ne _ _ _ _ hji] at hj
        exact absurd (crit_unique σ hmux (Or.inr (Or.inr (Or.inl ⟨l', t', hj⟩))) hcriti) hji
    · intro j l' t' hj
      dsimp only at hj ⊢
      by_cases hji : j = i
      · subst hji; rw [update_self] at hj; cases hj
      · rw [update_ne _ _ _ _ hji] at hj
        exact absurd (crit_unique σ hmux (Or.inr (Or.inr (Or.inr ⟨l', t', hj⟩))) hcriti) hji
    · intro t' ht'
      dsimp only at ht'
      rw [hgt] at ht'
      cases ht'
    · intro l' hl'
      dsimp only at hl'
      rw [hgl] at hl'
      cases hl'
    · dsimp only
      omega
    · intro j l' hj
      dsimp only at hj
      by_cases hji : j = i
      · subst hji; rw [update_self] at hj; cases hj
      · rw [update_ne _ _ _ _ hji] at hj; exact h8 j l' hj
    · intro _
      left
      refine ⟨i, ?_⟩
      dsimp only
      rw [update_self]
      exact Or.inr (Or.inl ⟨l, σ.thrs, rfl⟩)
  | lset_loop i l t hpc =>
    obtain ⟨hl0, ht0, hloops1, hthrs1, hgl, hgt, hal⟩ := h3 i l t hpc
    have hcriti : critL (σ.lpcs i) := Or.inr (Or.inr (Or.inl ⟨l, t, hpc⟩))
    refine ⟨?_, ?_, ?_, ?_, ?_, ?_, ?_, ?_, ?_⟩
    · intro j hj
      dsimp only at hj ⊢
      by_cases hji : j = i
      · subst hji; exact hmux j hcriti
      · rw [update_ne _ _ _ _ hji] at hj; exact hmux j hj
    · intro j l' hj
      dsimp only at hj ⊢
      by_cases hji : j = i
      · subst hji; rw [update_self] at hj; cases hj
      · rw [update_ne _ _ _ _ hji] at hj
        exact absurd (crit_unique σ hmux (Or.inr (Or.inl ⟨l', hj⟩)) hcriti) hji
    · intro j l' t' hj
      dsimp only at hj ⊢
      by_cases hji : j = i
      · subst hji; rw [update_self] at hj; cases hj
      · rw [update_ne _ _ _ _ hji] at hj
        exact absurd (crit_unique σ hmux (Or.inr (Or.inr (Or.inl ⟨l', t', hj⟩))) hcriti) hji
    · intro j l' t' hj
      dsimp only at hj ⊢
      by_cases hji : j = i
      · subst hji; rw [update_self] at hj
        cases hj
        rw [hl0]
        exact ⟨rfl, ht0, hloops1, hthrs1, rfl, hgt, hal⟩
      · rw [update_ne _ _ _ _ hji] at hj
        exact absurd (crit_unique σ hmux (Or.inr (Or.inr (Or.inr ⟨l', t', hj⟩))) hcriti) hji
    · intro t' ht'
      dsimp only at ht'
      rw [hgt] at ht'
      cases ht'
    · intro l' hl'
      dsimp only at hl'
      have : l = l' := Option.some.inj hl'
      rw [← this, hl0]
      exact ⟨rfl, hloops1⟩
    · dsimp only
      exact h7
    · intro j l' hj
      dsimp only at hj
      by_cases hji : j = i
      · subst hji; rw [update_self] at hj; cases hj
      · rw [update_ne _ _ _ _ hji] at hj; exact h8 j l' hj
    · intro _
      left
      refine ⟨i, ?_⟩
      dsimp only
      rw [update_self]
      exact Or.inr (Or.inr ⟨l, t, rfl⟩)
  | lset_thread i l t hpc =>
    obtain ⟨hl0, ht0, hloops1, hthrs1, hgl, hgt, hal⟩ := h4 i l t hpc
    have hcriti : critL (σ.lpcs i) := Or.inr (Or.inr (Or.inr ⟨l, t, hpc⟩))
    refine ⟨?_, ?_, ?_, ?_, ?_, ?_, ?_, ?_, ?_⟩
    · intro j hj
      dsimp only at hj ⊢
      by_cases hji : j = i
      · subst hji; rw [update_self] at hj; exact absurd hj (not_critL_ldone l)
      · rw [update_ne _ _ _ _ hji] at hj
        exact absurd (crit_unique σ hmux hj hcriti) hji
    · intro j l' hj
      dsimp only at hj ⊢
      by_cases hji : j = i
      · subst hji; rw [update_self] at hj; cases hj
      · rw [update_ne _ _ _ _ hji] at hj
        exact absurd (crit_unique σ hmux (Or.inr (Or.inl ⟨l', hj⟩)) hcriti) hji
    · intro j l' t' hj
      dsimp only at hj ⊢
      by_cases hji : j = i
      · subst hji; rw [update_self] at hj; cases hj
      · rw [update_ne _ _ _ _ hji] at hj
        exact absurd (crit_unique σ hmux (Or.inr (Or.inr (Or.inl ⟨l', t', hj⟩))) hcriti) hji
    · intro j l' t' hj
      dsimp only at hj ⊢
      by_cases hji : j = i
      · subst hji; rw [update_self] at hj; cases hj
      · rw [update_ne _ _ _ _ hji] at hj
        exact absurd (crit_unique σ hmux (Or.inr (Or.inr (Or.inr ⟨l', t', hj⟩))) hcriti) hji
    · intro t' ht'
      dsimp only at ht'
      have : t = t' := Option.some.inj ht'
      rw [← this, ht0]
      exact ⟨rfl, hgl, hal, hloops1, hthrs1⟩
    · intro l' hl'
      dsimp only at hl'
      exact h6 l' hl'
    · dsimp only
      exact h7
    · intro j l' hj
      dsimp only at hj
      by_cases hji : j = i
      · subst hji; rw [update_self] at hj; cases hj; exact hl0
      · rw [update_ne _ _ _ _ hji] at hj; exact h8 j l' hj
    · intro _
      right
      dsimp only
      rw [ht0] at *
      exact ⟨hgl, rfl⟩

theorem invL_reach {n : Nat} (σ : LoopSt n) (h : LReach n σ) : InvL σ := by
  induction h with
  | refl =>
    refine ⟨fun i hi => absurd hi not_critL_lstart, fun i l hi => ?_, fun i l t hi => ?_,
      fun i l t hi => ?_, fun t ht => ?_, fun l hl => ?_, ⟨Nat.zero_le 1, Nat.le_refl 0⟩,
      fun i l hi => ?_, fun hone => ?_⟩
    · cases hi
    · cases hi
    · cases hi
    · cases ht
    · cases hl
    · cases hi
    · exact absurd hone Nat.zero_ne_one
  | step hr hs ih => exact invL_step _ _ hs ih

/-- Trace state: the thread saw the empty fast path. -/
def lw1 : LoopSt 1 := { loopInit 1 with lpcs := Function.update (loopInit 1).lpcs 0 LPc.lacquire }

/-- Trace state: `_db_loop_lock` acquired, re-checking. -/
def lw2 : LoopSt 1 := { lw1 with llock := some 0, lpcs := Function.update lw1.lpcs 0 LPc.lrecheck }

/-- Trace state: event loop 0 constructed. -/
def lw3 : LoopSt 1 := { lw2 with loops := lw2.loops + 1, lpcs := Function.update lw2.lpcs 0 (LPc.lstartThr lw2.loops) }

/-- Trace state: worker thread 0 started and alive. -/
def lw4 : LoopSt 1 := { lw3 with thrs := lw3.thrs + 1, alive := fun x => if x = lw3.thrs then true else lw3.alive x, lpcs := Function.update lw3.lpcs 0 (LPc.lsetLoop 0 lw3.thrs) }

/-- Trace state: `_db_loop` assigned. -/
def lw5 : LoopSt 1 := { lw4 with gLoop := some 0, lpcs := Function.update lw4.lpcs 0 (LPc.lsetThr 0 0) }

/-- Trace state: `_db_thread` assigned, lock released, call returned. -/
def lw6 : LoopSt 1 := { lw5 with gThr := some 0, llock := none, lpcs := Function.update lw5.lpcs 0 (LPc.ldone 0) }

theorem lw6_reach : LReach 1 lw6 :=
  LReach.step
    (LReach.step
      (LReach.step
        (LReach.step
          (LReach.step
            (LReach.step LReach.refl (LStep.lto_acquire (loopInit 1) 0 rfl rfl))
            (LStep.lacquire_lock lw1 0 rfl rfl))
          (LStep.lmake_loop lw2 0 rfl rfl))
        (LStep.lstart_thread lw3 0 0 rfl))
      (LStep.lset_loop lw4 0 0 0 rfl))
    (LStep.lset_thread lw5 0 0 0 rfl)

theorem pw4_reach : PReach 1 poolGoodEnv pw4 :=
  PReach.step pw3_reach (PStep.init_ok pw3 0 0 rfl rfl)

/-- C5: singleton pool and worker.  In every reachable interleaving of
any number of threads calling `_ensure_db_loop`, at most one event loop
and at most one worker thread are ever constructed and every caller
that returns receives loop 0; in every reachable interleaving of any
number of coroutines calling `_get_pool` (under any environment), at
most one connection pool is ever constructed and every caller that
returns receives pool 0. -/
theorem singleton_pool_and_worker :
    (∀ (n : Nat) (σ : LoopSt n), LReach n σ →
        σ.loops ≤ 1 ∧ σ.thrs ≤ 1 ∧
          ∀ (i : Fin n) (l : Nat), σ.lpcs i = LPc.ldone l → l = 0) ∧
    (∀ (m : Nat) (env : PoolEnv) (σ : PoolSt m), PReach m env σ →
        σ.created ≤ 1 ∧
          ∀ (i : Fin m) (p : Nat), σ.pcs i = PPc.pret p → p = 0) := by
  constructor
  · intro n σ h
    obtain ⟨hmux, h2, h3, h4, h5, h6, h7, h8, h9⟩ := invL_reach σ h
    exact ⟨h7.1, le_trans h7.2 h7.1, h8⟩
  · intro m env σ h
    obtain ⟨hmux, hcre, hini, hglob, hret⟩ := invC5P_reach env σ h
    refine ⟨?_, hret⟩
    rcases hglob with ⟨_, h0⟩ | ⟨_, h1⟩ <;> omega

/-- Witness for C5: the completed single-thread and single-coroutine
runs — one loop, one thread, one pool, and the callers got loop 0 and
pool 0. -/
theorem singleton_pool_and_worker_witness :
    (lw6.loops ≤ 1 ∧ lw6.thrs ≤ 1 ∧
        ∀ (i : Fin 1) (l : Nat), lw6.lpcs i = LPc.ldone l → l = 0) ∧
    (pw4.created ≤ 1 ∧
        ∀ (i : Fin 1) (p : Nat), pw4.pcs i = PPc.pret p → p = 0) :=
  ⟨singleton_pool_and_worker.1 1 lw6 lw6_reach,
   singleton_pool_and_worker.2 1 poolGoodEnv pw4 pw4_reach⟩

/-!
The KV document store round-trips values through `json.dumps(value,
ensure_ascii=False)` on the way in (`db_set`, storage.py line 176) and
`json.loads(value)` on the way out when the driver hands the JSONB
column back as text (`db_get`, lines 158-159).  We embed both: `dumps`
follows CPython's `json` output (default separators, `ensure_ascii`
off: only `"` `\` and control characters are escaped) and `loads` is a
recursive-descent JSON parser.  Numbers are the integer numerals of the
`Json` model.
-/

/-- Decimal digits of `n`, most significant first, as characters. -/
def natToChars (n : Nat) : List Char :=
  if n = 0 then ['0'] else (Nat.digits 10 n).reverse.map Nat.digitChar

/-- Python `repr` of an integer. -/
def intToChars (i : Int) : List Char :=
  if i < 0 then '-' :: natToChars i.natAbs else natToChars i.natAbs

/-- The escape `json.dumps` applies to one character with
`ensure_ascii=False`: the two metacharacters, the five short control
escapes, `\u00xx` for the remaining control characters, and everything
else verbatim. -/
def escapeChar (c : Char) : List Char :=
  if c = '\"' then ['\\', '\"']
  else if c = '\\' then ['\\', '\\']
  else if c = '\x08' then ['\\', 'b']
  else if c = '\t' then ['\\', 't']
  else if c = '\n' then ['\\', 'n']
  else if c = '\x0c' then ['\\', 'f']
  else if c = '\r' then ['\\', 'r']
  else if c.toNat < 32 then
    ['\\', 'u', '0', '0', Nat.digitChar (c.toNat / 16), Nat.digitChar (c.toNat % 16)]
  else [c]

/-- Escape a whole string body. -/
def escapeChars : List Char → List Char
  | [] => []
  | c :: cs => escapeChar c ++ escapeChars cs

mutual

/-- `json.dumps(v, ensure_ascii=False)` with the default separators
(`", "` and `": "`), as a character list. -/
def Json.dumpChars : Json → List Char
  | .null => "null".data
  | .bool true => "true".data
  | .bool false => "false".data
  | .num i => intToChars i
  | .str s => '\"' :: (escapeChars s.data ++ ['\"'])
  | .arr [] => ['[', ']']
  | .arr (x :: xs) => '[' :: (Json.dumpChars x ++ Json.dumpArr xs ++ [']'])
  | .obj [] => ['\x7b', '\x7d']
  | .obj ((k, v) :: kvs) =>
    '\x7b' :: ('\"' :: (escapeChars k.data ++ ['\"', ':', ' '] ++ Json.dumpChars v)
      ++ Json.dumpObj kvs ++ ['\x7d'])

/-- Remaining array elements, each preceded by `", "`. -/
def Json.dumpArr : List Json → List Char
  | [] => []
  | x :: xs => ',' :: ' ' :: (Json.dumpChars x ++ Json.dumpArr xs)

/-- Remaining object members, each preceded by `", "`. -/
def Json.dumpObj : List (String × Json) → List Char
  | [] => []
  | (k, v) :: kvs =>
    ',' :: ' ' :: '\"' :: (escapeChars k.data ++ ['\"', ':', ' '] ++ Json.dumpChars v
      ++ Json.dumpObj kvs)

end

/-- `json.dumps(v, ensure_ascii=False)`. -/
def json_dumps (v : Json) : String := ⟨Json.dumpChars v⟩

/-- The whitespace JSON permits between tokens. -/
def isJsonWs (c : Char) : Bool := c = ' ' || c = '\t' || c = '\n' || c = '\r'

/-- Skip inter-token whitespace. -/
def skipWs : List Char → List Char
  | [] => []
  | c :: cs => if isJsonWs c then skipWs cs else c :: cs

/-- A decimal digit, by code point. -/
def isDigitChar (c : Char) : Bool := 48 ≤ c.toNat && c.toNat ≤ 57

/-- Value of one hexadecimal digit. -/
def hexVal (c : Char) : Option Nat :=
  if 48 ≤ c.toNat ∧ c.toNat ≤ 57 then some (c.toNat - 48)
  else if 97 ≤ c.toNat ∧ c.toNat ≤ 102 then some (c.toNat - 97 + 10)
  else if 65 ≤ c.toNat ∧ c.toNat ≤ 70 then some (c.toNat - 65 + 10)
  else none

/-- Read four hexadecimal digits. -/
def parse4Hex : List Char → Option (Nat × List Char)
  | h1 :: h2 :: h3 :: h4 :: rest =>
    match hexVal h1, hexVal h2, hexVal h3, hexVal h4 with
    | some a, some b, some c, some d => some (((a * 16 + b) * 16 + c) * 16 + d, rest)
    | _, _, _, _ => none
  | _ => none

/-- Decode one unit of a JSON string body in strict mode: the closing
quote (`none`), a raw character (control characters rejected), one of
the standard escapes, or `\uXXXX` with surrogate-pair combination. -/
def nextStringToken : List Char → Option (Option Char × List Char)
  | [] => none
  | c :: cs =>
    if c = '\"' then some (none, cs)
    else if c = '\\' then
      match cs with
      | [] => none
      | e :: cs2 =>
        if e = '\"' then some (some '\"', cs2)
        else if e = '\\' then some (some '\\', cs2)
        else if e = '/' then some (some '/', cs2)
        else if e = 'b' then some (some '\x08', cs2)
        else if e = 'f' then some (some '\x0c', cs2)
        else if e = 'n' then some (some '\n', cs2)
        else if e = 'r' then some (some '\r', cs2)
        else if e = 't' then some (some '\t', cs2)
        else if e = 'u' then
          match parse4Hex cs2 with
          | none => none
          | some (code, rest) =>
            if 0xd800 ≤ code ∧ code ≤ 0xdbff then
              match rest with
              | b1 :: b2 :: rest1 =>
                if b1 = '\\' ∧ b2 = 'u' then
                  match parse4Hex rest1 with
                  | none => none
                  | some (low, rest2) =>
                    if 0xdc00 ≤ low ∧ low ≤ 0xdfff then
                      some (some (Char.ofNat (0x10000 + (code - 0xd800) * 0x400 + (low - 0xdc00))), rest2)
                    else none
                else none
              | _ => none
            else if 0xdc00 ≤ code ∧ code ≤ 0xdfff then none
            else some (some (Char.ofNat code), rest)
        else none
    else if c.toNat < 32 then none
    else some (some c, cs)

/-- Parse a JSON string body after the opening quote, decoding token
by token until the closing quote; the fuel only bounds the number of
decoded characters (each token consumes input). -/
def parseStringBody : Nat → List Char → Option (List Char × List Char)
  | 0, _ => none
  | fuel + 1, cs =>
    match nextStringToken cs with
    | none => none
    | some (none, rest) => some ([], rest)
    | some (some c, rest) =>
      match parseStringBody fuel rest with
      | none => none
      | some (s, rest2) => some (c :: s, rest2)

/-- Greedily parse decimal digits into an accumulator. -/
def parseDigits : List Char → Nat → Nat × List Char
  | [], acc => (acc, [])
  | c :: cs, acc =>
    if isDigitChar c then parseDigits cs (acc * 10 + (c.toNat - 48)) else (acc, c :: cs)

/-- Parse a digit run that must start with a digit. -/
def parseDigitsStrict (cs : List Char) : Option (Nat × List Char) :=
  match cs with
  | [] => none
  | c :: _ => if isDigitChar c then some (parseDigits cs 0) else none

/-- Parse an integer JSON numeral (the number fragment of the model). -/
def parseNum : List Char → Option (Json × List Char)
  | [] => none
  | c :: cs =>
    if c = '-' then
      (parseDigitsStrict cs).map (fun r => (Json.num (-(r.1 : Int)), r.2))
    else if isDigitChar c then
      (parseDigitsStrict (c :: cs)).map (fun r => (Json.num (r.1 : Int), r.2))
    else none

/-- Expect a literal character sequence. -/
def expectChars : List Char → List Char → Option (List Char)
  | [], cs => some cs
  | _ :: _, [] => none
  | e :: es, c :: cs => if c = e then expectChars es cs else none

mutual

/-- Recursive-descent JSON value parser; `fuel` only bounds recursion
depth (every recursive call decrements it). -/
def parseValue : Nat → List Char → Option (Json × List Char)
  | 0, _ => none
  | fuel + 1, cs =>
    match skipWs cs with
    | [] => none
    | c :: rest =>
      if c = 'n' then (expectChars ['u', 'l', 'l'] rest).map (fun r => (Json.null, r))
      else if c = 't' then (expectChars ['r', 'u', 'e'] rest).map (fun r => (Json.bool true, r))
      else if c = 'f' then (expectChars ['a', 'l', 's', 'e'] rest).map (fun r => (Json.bool false, r))
      else if c = '\"' then
        (parseStringBody (rest.length + 1) rest).map (fun r => (Json.str ⟨r.1⟩, r.2))
      else if c = '[' then parseElems fuel rest
      else if c = '\x7b' then parseMembers fuel rest
      else parseNum (c :: rest)

/-- After `[`: empty array or first element then the tail. -/
def parseElems : Nat → List Char → Option (Json × List Char)
  | 0, _ => none
  | fuel + 1, cs =>
    match skipWs cs with
    | [] => none
    | c :: rest =>
      if c = ']' then some (Json.arr [], rest)
      else
        match parseValue fuel (c :: rest) with
        | none => none
        | some (v, rest1) =>
          match parseElemsTail fuel rest1 with
          | none => none
          | some (vs, rest2) => some (Json.arr (v :: vs), rest2)

/-- After one element: `]` or `,` then the next element. -/
def parseElemsTail : Nat → List Char → Option (List Json × List Char)
  | 0, _ => none
  | fuel + 1, cs =>
    match skipWs cs with
    | [] => none
    | c :: rest =>
      if c = ']' then some ([], rest)
      else if c = ',' then
        match parseValue fuel rest with
        | none => none
        | some (v, rest2) =>
          match parseElemsTail fuel rest2 with
          | none => none
          | some (vs, rest3) => some (v :: vs, rest3)
      else none

/-- After `{`: empty object or first member then the tail. -/
def parseMembers : Nat → List Char → Option (Json × List Char)
  | 0, _ => none
  | fuel + 1, cs =>
    match skipWs cs with
    | [] => none
    | c :: rest =>
      if c = '\x7d' then some (Json.obj [], rest)
      else
        match parseMember fuel (c :: rest) with
        | none => none
        | some (k, v, rest1) =>
          match parseMembersTail fuel rest1 with
          | none => none
          | some (kvs, rest2) => some (Json.obj ((k, v) :: kvs), rest2)

/-- One `"key": value` member. -/
def parseMember : Nat → List Char → Option (String × Json × List Char)
  | 0, _ => none
  | fuel + 1, cs =>
    match skipWs cs with
    | [] => none
    | c :: rest =>
      if c = '\"' then
        match parseStringBody (rest.length + 1) rest with
        | none => none
        | some (kcs, rest1) =>
          match skipWs rest1 with
          | [] => none
          | c2 :: rest2 =>
            if c2 = ':' then
              match parseValue fuel rest2 with
              | none => none
              | some (v, rest3) => some (⟨kcs⟩, v, rest3)
            else none
      else none

/-- After one member: `}` or `,` then the next member. -/
def parseMembersTail : Nat → List Char → Option (List (String × Json) × List Char)
  | 0, _ => none
  | fuel + 1, cs =>
    match skipWs cs with
    | [] => none
    | c :: rest =>
      if c = '\x7d' then some ([], rest)
      else if c = ',' then
        match parseMember fuel rest with
        | none => none
        | some (k, v, rest2) =>
          match parseMembersTail fuel rest2 with
          | none => none
          | some (kvs, rest3) => some ((k, v) :: kvs, rest3)
      else none

end

/-- `json.loads(s)` on the integer-numeral JSON fragment: parse one
value, then require only trailing whitespace. -/
def json_loads (s : String) : Option Json :=
  match parseValue (2 * s.data.length + 2) s.data with
  | none => none
  | some (v, rest) => if (skipWs rest).isEmpty then some v else none

/-- The `kv_store` table: at most one row per key; PostgreSQL stores
the JSONB document parsed from the transmitted text. -/
abbrev KvTable := List (String × Json)

/-- Embedding of `db_set`: serialize with `json.dumps`, let the server
parse the text into the stored document, upsert on the key. -/
def db_set (k : String) (v : Json) (t : KvTable) : Option KvTable :=
  match json_loads (json_dumps v) with
  | none => none
  | some w =>
    if t.any (fun p => p.1 == k) then
      some (t.map (fun p => if p.1 == k then (k, w) else p))
    else
      some (t ++ [(k, w)])

/-- Embedding of `db_get`: fetch the row; when the driver returns the
value as raw JSON text (`asText`), decode it with `json.loads`. -/
def db_get (asText : Bool) (k : String) (t : KvTable) : Option Json :=
  match t.find? (fun p => p.1 == k) with
  | none => none
  | some p => if asText then json_loads (json_dumps p.2) else some p.2

theorem hexVal_le {c : Char} {a : Nat} (h : hexVal c = some a) : a ≤ 15 := by
  unfold hexVal at h
  split_ifs at h <;> (cases h; omega)

theorem hexVal_digitChar : ∀ d < 16, hexVal (Nat.digitChar d) = some d := by decide

theorem isDigitChar_digitChar : ∀ d < 10, isDigitChar (Nat.digitChar d) = true := by decide

theorem digitChar_toNat : ∀ d < 10, (Nat.digitChar d).toNat - 48 = d := by decide

theorem isJsonWs_digitChar : ∀ d < 10, isJsonWs (Nat.digitChar d) = false := by decide

theorem digitChar_ne_rbracket : ∀ d < 10, Nat.digitChar d ≠ ']' := by decide

theorem nst_quote (cs : List Char) : nextStringToken ('\"' :: cs) = some (none, cs) := by
  simp [nextStringToken]

theorem nst_raw (c : Char) (cs : List Char) (h1 : ¬ c = '\"') (h2 : ¬ c = '\\')
    (h3 : ¬ c.toNat < 32) : nextStringToken (c :: cs) = some (some c, cs) := by
  simp only [nextStringToken]
  rw [if_neg h1, if_neg h2, if_neg h3]

theorem nst_esc_quote (cs : List Char) :
    nextStringToken ('\\' :: '\"' :: cs) = some (some '\"', cs) := by
  simp [nextStringToken]

theorem nst_esc_backslash (cs : List Char) :
    nextStringToken ('\\' :: '\\' :: cs) = some (some '\\', cs) := by
  simp [nextStringToken]

theorem nst_esc_b (cs : List Char) :
    nextStringToken ('\\' :: 'b' :: cs) = some (some '\x08', cs) := by
  simp [nextStringToken]

theorem nst_esc_f (cs : List Char) :
    nextStringToken ('\\' :: 'f' :: cs) = some (some '\x0c', cs) := by
  simp [nextStringToken]

theorem nst_esc_n (cs : List Char) :
    nextStringToken ('\\' :: 'n' :: cs) = some (some '\n', cs) := by
  simp [nextStringToken]

theorem nst_esc_r (cs : List Char) :
    nextStringToken ('\\' :: 'r' :: cs) = some (some '\r', cs) := by
  simp [nextStringToken]

theorem nst_esc_t (cs : List Char) :
    nextStringToken ('\\' :: 't' :: cs) = some (some '\t', cs) := by
  simp [nextStringToken]

theorem nst_esc_u (h3 h4 : Char) (a b : Nat) (cs : List Char)
    (hh3 : hexVal h3 = some a) (hh4 : hexVal h4 = some b) :
    nextStringToken ('\\' :: 'u' :: '0' :: '0' :: h3 :: h4 :: cs) =
      some (some (Char.ofNat (a * 16 + b)), cs) := by
  have ha := hexVal_le hh3
  have hb := hexVal_le hh4
  have h00 : hexVal '0' = some 0 := by decide
  have hps : parse4Hex ('0' :: '0' :: h3 :: h4 :: cs) = some (a * 16 + b, cs) := by
    simp only [parse4Hex, h00, hh3, hh4]
    norm_num
  have hns1 : ¬ (55296 ≤ a * 16 + b ∧ a * 16 + b ≤ 56319) := by omega
  have hns2 : ¬ (56320 ≤ a * 16 + b ∧ a * 16 + b ≤ 57343) := by omega
  simp [nextStringToken, hps, hns1, hns2]

theorem escapeChar_length_pos (c : Char) : 1 ≤ (escapeChar c).length := by
  unfold escapeChar
  split_ifs <;> simp

theorem escapeChars_length_ge : ∀ s : List Char, s.length ≤ (escapeChars s).length
  | [] => Nat.le_refl 0
  | c :: s' => by
    have h1 := escapeChar_length_pos c
    have h2 := escapeChars_length_ge s'
    simp only [escapeChars, List.length_cons, List.length_append]
    omega

theorem rtString : ∀ (s : List Char) (f : Nat) (rest : List Char), s.length < f →
    parseStringBody f (escapeChars s ++ '\"' :: rest) = some (s, rest)
  | [], f, rest, hf => by
    obtain ⟨f', rfl⟩ : ∃ f', f = f' + 1 := ⟨f - 1, by omega⟩
    simp only [escapeChars, List.nil_append, parseStringBody, nst_quote]
  | c :: s', f, rest, hf => by
    obtain ⟨f', rfl⟩ : ∃ f', f = f' + 1 := ⟨f - 1, by omega⟩
    have hf' : s'.length < f' := by
      simp only [List.length_cons] at hf
      omega
    have ih := rtString s' f' rest hf'
    show parseStringBody (f' + 1) (escapeChars (c :: s') ++ '\"' :: rest) = some (c :: s', rest)
    have hsplit : escapeChars (c :: s') ++ '\"' :: rest
        = escapeChar c ++ (escapeChars s' ++ '\"' :: rest) := by
      simp [escapeChars]
    rw [hsplit]
    by_cases h1 : c = '\"'
    · subst h1
      rw [show escapeChar '\"' = ['\\', '\"'] from rfl]
      simp [parseStringBody, nst_esc_quote, ih]
    · by_cases h2 : c = '\\'
      · subst h2
        rw [show escapeChar '\\' = ['\\', '\\'] from rfl]
        simp [parseStringBody, nst_esc_backslash, ih]
      · by_cases h3 : c = '\x08'
        · subst h3
          rw [show escapeChar '\x08' = ['\\', 'b'] from rfl]
          simp [parseStringBody, nst_esc_b, ih]
        · by_cases h4 : c = '\t'
          · subst h4
            rw [show escapeChar '\t' = ['\\', 't'] from rfl]
            simp [parseStringBody, nst_esc_t, ih]
          · by_cases h5 : c = '\n'
            · subst h5
              rw [show escapeChar '\n' = ['\\', 'n'] from rfl]
              simp [parseStringBody, nst_esc_n, ih]
            · by_cases h6 : c = '\x0c'
              · subst h6
                rw [show escapeChar '\x0c' = ['\\', 'f'] from rfl]
                simp [parseStringBody, nst_esc_f, ih]
              · by_cases h7 : c = '\r'
                · subst h7
                  rw [show escapeChar '\r' = ['\\', 'r'] from rfl]
                  simp [parseStringBody, nst_esc_r, ih]
                · by_cases h8 : c.toNat < 32
                  · have hesc : escapeChar c =
                        ['\\', 'u', '0', '0', Nat.digitChar (c.toNat / 16),
                          Nat.digitChar (c.toNat % 16)] := by
                      unfold escapeChar
                      rw [if_neg h1, if_neg h2, if_neg h3, if_neg h4, if_neg h5,
                        if_neg h6, if_neg h7, if_pos h8]
                    rw [hesc]
                    have hdiv : c.toNat / 16 < 16 := by omega
                    have hmod : c.toNat % 16 < 16 := by omega
                    have hu := nst_esc_u (Nat.digitChar (c.toNat / 16))
                      (Nat.digitChar (c.toNat % 16)) (c.toNat / 16) (c.toNat % 16)
                      (escapeChars s' ++ '\"' :: rest)
                      (hexVal_digitChar _ hdiv) (hexVal_digitChar _ hmod)
                    have hcode : c.toNat / 16 * 16 + c.toNat % 16 = c.toNat := by omega
                    rw [hcode] at hu
                    simp only [List.cons_append, List.nil_append]
                    simp [parseStringBody, hu, ih, Char.ofNat_toNat]
                  · have hesc : escapeChar c = [c] := by
                      unfold escapeChar
                      rw [if_neg h1, if_neg h2, if_neg h3, if_neg h4, if_neg h5,
                        if_neg h6, if_neg h7, if_neg h8]
                    rw [hesc]
                    simp [parseStringBody, nst_raw c _ h1 h2 h8, ih]

/-- The continuation after a numeral must not start with a digit (in
serializer output it is `,`, `]`, `\x7d` or the end). -/
def headNotDigit : List Char → Prop
  | [] => True
  | c :: _ => isDigitChar c = false

theorem parseDigits_append :
    ∀ (ds : List Nat) (rest : List Char) (acc : Nat),
      (∀ d ∈ ds, d < 10) → headNotDigit rest →
      parseDigits (ds.map Nat.digitChar ++ rest) acc
        = (ds.foldl (fun a d => a * 10 + d) acc, rest)
  | [], rest, acc, _, hnd => by
    cases rest with
    | nil => simp [parseDigits]
    | cons c cs =>
      have : isDigitChar c = false := hnd
      simp [parseDigits, this]
  | d :: ds, rest, acc, hds, hnd => by
    have hd : d < 10 := hds d (List.mem_cons_self d ds)
    have h1 : isDigitChar (Nat.digitChar d) = true := isDigitChar_digitChar d hd
    have h2 : (Nat.digitChar d).toNat - 48 = d := digitChar_toNat d hd
    simp only [List.map_cons, List.cons_append, parseDigits, h1, if_true, h2]
    exact parseDigits_append ds rest (acc * 10 + d)
      (fun x hx => hds x (List.mem_cons_of_mem d hx)) hnd

theorem foldl_digits_eq : ∀ (ds : List Nat) (acc : Nat),
    List.foldl (fun a d => a * 10 + d) acc ds.reverse
      = acc * 10 ^ ds.length + Nat.ofDigits 10 ds
  | [], acc => by simp
  | d :: ds, acc => by
    rw [List.reverse_cons, List.foldl_append, foldl_digits_eq ds acc]
    simp only [List.foldl_cons, List.foldl_nil, Nat.ofDigits_cons, List.length_cons]
    ring

theorem parseDigits_natToChars (n : Nat) (rest : List Char) (hnd : headNotDigit rest) :
    parseDigits (natToChars n ++ rest) 0 = (n, rest) := by
  by_cases h0 : n = 0
  · subst h0
    have := parseDigits_append [0] rest 0 (by simp) hnd
    simpa [natToChars] using this
  · have hds : ∀ d ∈ (Nat.digits 10 n).reverse, d < 10 := by
      intro d hd
      exact Nat.digits_lt_base (by norm_num) (List.mem_reverse.mp hd)
    have happ := parseDigits_append ((Nat.digits 10 n).reverse) rest 0 hds hnd
    rw [natToChars, if_neg h0, happ]
    congr 1
    rw [foldl_digits_eq]
    simp [Nat.ofDigits_digits]

theorem natToChars_head (n : Nat) :
    ∃ c tl, natToChars n = c :: tl ∧ isDigitChar c = true := by
  by_cases h0 : n = 0
  · exact ⟨'0', [], by simp [natToChars, h0], by decide⟩
  · have hne : (Nat.digits 10 n).reverse ≠ [] := by
      simp [Nat.digits_ne_nil_iff_ne_zero.mpr h0]
    obtain ⟨d, ds, hcl⟩ := List.exists_cons_of_ne_nil hne
    have hd10 : d < 10 := by
      apply Nat.digits_lt_base (by norm_num)
      rw [← List.mem_reverse, hcl]
      exact List.mem_cons_self d ds
    refine ⟨Nat.digitChar d, ds.map Nat.digitChar, ?_, isDigitChar_digitChar d hd10⟩
    rw [natToChars, if_neg h0, hcl]
    simp

theorem rtNum (i : Int) (rest : List Char) (hnd : headNotDigit rest) :
    parseNum (intToChars i ++ rest) = some (Json.num i, rest) := by
  obtain ⟨c, tl, hct, hd⟩ := natToChars_head i.natAbs
  have hpd := parseDigits_natToChars i.natAbs rest hnd
  have hstrict : parseDigitsStrict (natToChars i.natAbs ++ rest) = some (i.natAbs, rest) := by
    rw [hct, List.cons_append]
    simp only [parseDigitsStrict, hd, if_true]
    rw [← List.cons_append, ← hct, hpd]
  by_cases hneg : i < 0
  · rw [intToChars, if_pos hneg, List.cons_append]
    simp only [parseNum, if_pos rfl, hstrict, Option.map_some']
    have : -(i.natAbs : Int) = i := by omega
    rw [this]
    simp
  · rw [intToChars, if_neg hneg, hct, List.cons_append]
    have hcm : ¬ c = '-' := by
      intro he
      subst he
      revert hd
      decide
    simp only [parseNum, if_neg hcm, hd, if_true]
    rw [← List.cons_append, ← hct, hstrict]
    simp only [Option.map_some']
    have : (i.natAbs : Int) = i := by omega
    rw [this]

mutual

/-- Recursion depth the parser needs for a value of the model. -/
def fuelV : Json → Nat
  | .null => 1
  | .bool _ => 1
  | .num _ => 1
  | .str _ => 1
  | .arr [] => 2
  | .arr (x :: xs) => 2 + max (fuelV x) (fuelTail xs)
  | .obj [] => 2
  | .obj ((_, v) :: kvs) => 3 + max (fuelV v) (fuelMTail kvs)

/-- Depth needed by `parseElemsTail` for the remaining elements. -/
def fuelTail : List Json → Nat
  | [] => 1
  | x :: xs => 1 + max (fuelV x) (fuelTail xs)

/-- Depth needed by `parseMembersTail` for the remaining members. -/
def fuelMTail : List (String × Json) → Nat
  | [] => 1
  | (_, v) :: kvs => 2 + max (fuelV v) (fuelMTail kvs)

end

theorem fuelV_pos (v : Json) : 1 ≤ fuelV v := by
  cases v with
  | arr elems => cases elems <;> (simp only [fuelV]; omega)
  | obj members =>
    cases members with
    | nil => simp [fuelV]
    | cons kv kvs =>
      obtain ⟨k, v⟩ := kv
      simp only [fuelV]
      omega
  | null => simp [fuelV]
  | bool b => simp [fuelV]
  | num n => simp [fuelV]
  | str s => simp [fuelV]

theorem skipWs_cons_not (c : Char) (cs : List Char) (h : isJsonWs c = false) :
    skipWs (c :: cs) = c :: cs := by
  simp [skipWs, h]

theorem parseValue_ws (f : Nat) (cs : List Char) :
    parseValue f (' ' :: cs) = parseValue f cs := by
  cases f with
  | zero => rfl
  | succ f =>
    simp only [parseValue]
    rw [show skipWs (' ' :: cs) = skipWs cs from by simp [skipWs, isJsonWs]]

theorem parseMember_ws (f : Nat) (cs : List Char) :
    parseMember f (' ' :: cs) = parseMember f cs := by
  cases f with
  | zero => rfl
  | succ f =>
    simp only [parseMember]
    rw [show skipWs (' ' :: cs) = skipWs cs from by simp [skipWs, isJsonWs]]

theorem digit_head_ok {c : Char} (h : isDigitChar c = true) :
    isJsonWs c = false ∧ ¬ c = ']' ∧ ¬ c = '\x7d' := by
  refine ⟨?_, ?_, ?_⟩
  · by_contra hw
    rw [Bool.not_eq_false] at hw
    simp only [isJsonWs, Bool.or_eq_true, decide_eq_true_eq] at hw
    rcases hw with ((rfl | rfl) | rfl) | rfl <;> (revert h; decide)
  · intro he; subst he; revert h; decide
  · intro he; subst he; revert h; decide

theorem numHead_ne {c : Char} (h : isDigitChar c = true ∨ c = '-') :
    ¬ c = 'n' ∧ ¬ c = 't' ∧ ¬ c = 'f' ∧ ¬ c = '\"' ∧ ¬ c = '[' ∧ ¬ c = '\x7b' := by
  rcases h with h | h
  · refine ⟨?_, ?_, ?_, ?_, ?_, ?_⟩ <;> (intro he; subst he; revert h; decide)
  · subst h
    exact ⟨by decide, by decide, by decide, by decide, by decide, by decide⟩

theorem notWs_of_numHead {c : Char} (h : isDigitChar c = true ∨ c = '-') :
    isJsonWs c = false := by
  rcases h with h | h
  · exact (digit_head_ok h).1
  · subst h; decide

theorem intToChars_head (i : Int) :
    ∃ c tl, intToChars i = c :: tl ∧ (isDigitChar c = true ∨ c = '-') := by
  by_cases hneg : i < 0
  · exact ⟨'-', natToChars i.natAbs, by rw [intToChars, if_pos hneg], Or.inr rfl⟩
  · obtain ⟨c, tl, hct, hd⟩ := natToChars_head i.natAbs
    exact ⟨c, tl, by rw [intToChars, if_neg hneg, hct], Or.inl hd⟩

theorem parseValue_to_parseNum (f : Nat) (c : Char) (cs : List Char)
    (h : isDigitChar c = true ∨ c = '-') :
    parseValue (f + 1) (c :: cs) = parseNum (c :: cs) := by
  obtain ⟨h1, h2, h3, h4, h5, h6⟩ := numHead_ne h
  simp only [parseValue]
  rw [skipWs_cons_not _ _ (notWs_of_numHead h)]
  simp [h1, h2, h3, h4, h5, h6]

theorem dumpChars_head (v : Json) :
    ∃ c tl, Json.dumpChars v = c :: tl ∧ isJsonWs c = false ∧ ¬ c = ']' ∧ ¬ c = '\x7d' := by
  cases v with
  | null => refine ⟨'n', _, rfl, ?_, ?_, ?_⟩ <;> decide
  | bool b =>
    cases b
    case false => refine ⟨'f', _, rfl, ?_, ?_, ?_⟩ <;> decide
    case true => refine ⟨'t', _, rfl, ?_, ?_, ?_⟩ <;> decide
  | num i =>
    obtain ⟨c, tl, hct, hd⟩ := intToChars_head i
    rcases hd with hd | hd
    · obtain ⟨hw, hb, hbc⟩ := digit_head_ok hd
      exact ⟨c, tl, by rw [show Json.dumpChars (Json.num i) = intToChars i from rfl, hct],
        hw, hb, hbc⟩
    · subst hd
      exact ⟨'-', tl, by rw [show Json.dumpChars (Json.num i) = intToChars i from rfl, hct],
        by decide, by decide, by decide⟩
  | str s => refine ⟨'\"', _, rfl, ?_, ?_, ?_⟩ <;> decide
  | arr elems =>
    cases elems <;> (refine ⟨'[', _, rfl, ?_, ?_, ?_⟩ <;> decide)
  | obj members =>
    cases members with
    | nil => refine ⟨'\x7b', _, rfl, ?_, ?_, ?_⟩ <;> decide
    | cons kv kvs =>
      obtain ⟨k, v⟩ := kv
      refine ⟨'\x7b', _, rfl, ?_, ?_, ?_⟩ <;> decide

theorem hnd_dumpArr (xs : List Json) (rest : List Char) :
    headNotDigit (Json.dumpArr xs ++ ']' :: rest) := by
  cases xs with
  | nil => exact (by decide : isDigitChar ']' = false)
  | cons x xs => exact (by decide : isDigitChar ',' = false)

theorem hnd_dumpObj (kvs : List (String × Json)) (rest : List Char) :
    headNotDigit (Json.dumpObj kvs ++ '\x7d' :: rest) := by
  cases kvs with
  | nil => exact (by decide : isDigitChar '\x7d' = false)
  | cons kv kvs =>
    obtain ⟨k, v⟩ := kv
    exact (by decide : isDigitChar ',' = false)

mutual

theorem rtValue : ∀ (v : Json) (f : Nat) (rest : List Char),
    fuelV v ≤ f → headNotDigit rest →
    parseValue f (Json.dumpChars v ++ rest) = some (v, rest)
  | .null, f, rest, hf, hnd => by
    obtain ⟨f', rfl⟩ : ∃ f', f = f' + 1 := ⟨f - 1, by simp [fuelV] at hf; omega⟩
    show parseValue (f' + 1) (['n', 'u', 'l', 'l'] ++ rest) = some (Json.null, rest)
    simp only [List.cons_append, List.nil_append, parseValue]
    rw [skipWs_cons_not _ _ (by decide)]
    simp [expectChars]
  | .bool true, f, rest, hf, hnd => by
    obtain ⟨f', rfl⟩ : ∃ f', f = f' + 1 := ⟨f - 1, by simp [fuelV] at hf; omega⟩
    show parseValue (f' + 1) (['t', 'r', 'u', 'e'] ++ rest) = some (Json.bool true, rest)
    simp only [List.cons_append, List.nil_append, parseValue]
    rw [skipWs_cons_not _ _ (by decide)]
    simp [expectChars]
  | .bool false, f, rest, hf, hnd => by
    obtain ⟨f', rfl⟩ : ∃ f', f = f' + 1 := ⟨f - 1, by simp [fuelV] at hf; omega⟩
    show parseValue (f' + 1) (['f', 'a', 'l', 's', 'e'] ++ rest) = some (Json.bool false, rest)
    simp only [List.cons_append, List.nil_append, parseValue]
    rw [skipWs_cons_not _ _ (by decide)]
    simp [expectChars]
  | .num i, f, rest, hf, hnd => by
    obtain ⟨f', rfl⟩ : ∃ f', f = f' + 1 := ⟨f - 1, by simp [fuelV] at hf; omega⟩
    obtain ⟨c, tl, hct, hh⟩ := intToChars_head i
    show parseValue (f' + 1) (intToChars i ++ rest) = some (Json.num i, rest)
    rw [hct, List.cons_append, parseValue_to_parseNum f' c _ hh, ← List.cons_append, ← hct]
    exact rtNum i rest hnd
  | .str s, f, rest, hf, hnd => by
    obtain ⟨f', rfl⟩ : ∃ f', f = f' + 1 := ⟨f - 1, by simp [fuelV] at hf; omega⟩
    show parseValue (f' + 1) (('\"' :: (escapeChars s.data ++ ['\"'])) ++ rest)
      = some (Json.str s, rest)
    simp only [List.cons_append, List.append_assoc, List.nil_append]
    simp only [parseValue]
    rw [skipWs_cons_not _ _ (by decide)]
    have hrt := rtString s.data
      ((escapeChars s.data ++ '\"' :: rest).length + 1) rest (by
        have := escapeChars_length_ge s.data
        simp only [List.length_append, List.length_cons]
        omega)
    show (parseStringBody ((escapeChars s.data ++ '\"' :: rest).length + 1)
        (escapeChars s.data ++ '\"' :: rest)).map (fun r => (Json.str ⟨r.1⟩, r.2))
      = some (Json.str s, rest)
    rw [hrt]
    rfl
  | .arr [], f, rest, hf, hnd => by
    obtain ⟨f'', rfl⟩ : ∃ f'', f = f'' + 2 := ⟨f - 2, by simp [fuelV] at hf; omega⟩
    show parseValue (f'' + 1 + 1) (['[', ']'] ++ rest) = some (Json.arr [], rest)
    simp only [List.cons_append, List.nil_append, parseValue]
    rw [skipWs_cons_not _ _ (by decide)]
    have hinner : parseElems (f'' + 1) (']' :: rest) = some (Json.arr [], rest) := by
      simp only [parseElems]
      rw [skipWs_cons_not _ _ (by decide)]
      simp
    simp [hinner]
  | .arr (x :: xs), f, rest, hf, hnd => by
    simp only [fuelV] at hf
    obtain ⟨f'', rfl⟩ : ∃ f'', f = f'' + 2 := ⟨f - 2, by omega⟩
    obtain ⟨c, tl, hct, hws, hbr, _⟩ := dumpChars_head x
    show parseValue (f'' + 1 + 1)
        (('[' :: (Json.dumpChars x ++ Json.dumpArr xs ++ [']'])) ++ rest)
      = some (Json.arr (x :: xs), rest)
    simp only [List.cons_append, List.append_assoc, List.nil_append]
    simp only [parseValue]
    rw [skipWs_cons_not _ _ (by decide)]
    have hinner : parseElems (f'' + 1)
        (Json.dumpChars x ++ (Json.dumpArr xs ++ ']' :: rest))
        = some (Json.arr (x :: xs), rest) := by
      simp only [parseElems]
      rw [hct, List.cons_append, skipWs_cons_not _ _ hws]
      have hv : parseValue f'' (c :: (tl ++ (Json.dumpArr xs ++ ']' :: rest)))
          = some (x, Json.dumpArr xs ++ ']' :: rest) := by
        rw [← List.cons_append, ← hct]
        exact rtValue x f'' _ (by omega) (hnd_dumpArr xs rest)
      have ht : parseElemsTail f'' (Json.dumpArr xs ++ ']' :: rest) = some (xs, rest) :=
        rtTail xs f'' rest (by omega)
      simp [hbr, hv, ht]
    simp [hinner]
  | .obj [], f, rest, hf, hnd => by
    obtain ⟨f'', rfl⟩ : ∃ f'', f = f'' + 2 := ⟨f - 2, by simp [fuelV] at hf; omega⟩
    show parseValue (f'' + 1 + 1) (['\x7b', '\x7d'] ++ rest) = some (Json.obj [], rest)
    simp only [List.cons_append, List.nil_append, parseValue]
    rw [skipWs_cons_not _ _ (by decide)]
    have hinner : parseMembers (f'' + 1) ('\x7d' :: rest) = some (Json.obj [], rest) := by
      simp only [parseMembers]
      rw [skipWs_cons_not _ _ (by decide)]
      simp
    simp [hinner]
  | .obj ((k, v) :: kvs), f, rest, hf, hnd => by
    simp only [fuelV] at hf
    obtain ⟨f3, rfl⟩ : ∃ g, f = g + 3 := ⟨f - 3, by omega⟩
    show parseValue (f3 + 2 + 1)
        (('\x7b' :: ('\"' :: (escapeChars k.data ++ ['\"', ':', ' '] ++ Json.dumpChars v)
          ++ Json.dumpObj kvs ++ ['\x7d'])) ++ rest)
      = some (Json.obj ((k, v) :: kvs), rest)
    simp only [List.cons_append, List.append_assoc, List.nil_append]
    simp only [parseValue]
    rw [skipWs_cons_not _ _ (by decide)]
    have hmem : parseMember (f3 + 1)
        ('\"' :: (escapeChars k.data
          ++ ('\"' :: ':' :: ' ' :: (Json.dumpChars v ++ (Json.dumpObj kvs ++ '\x7d' :: rest)))))
        = some (k, v, Json.dumpObj kvs ++ '\x7d' :: rest) :=
      rtMember (k, v) f3 _ (show fuelV v ≤ f3 by omega) (hnd_dumpObj kvs rest)
    have htail : parseMembersTail (f3 + 1) (Json.dumpObj kvs ++ '\x7d' :: rest)
        = some (kvs, rest) :=
      rtMTail kvs (f3 + 1) rest (by omega)
    have hms : parseMembers (f3 + 1 + 1)
        ('\"' :: (escapeChars k.data
          ++ ('\"' :: ':' :: ' ' :: (Json.dumpChars v ++ (Json.dumpObj kvs ++ '\x7d' :: rest)))))
        = some (Json.obj ((k, v) :: kvs), rest) := by
      simp only [parseMembers]
      rw [skipWs_cons_not _ _ (by decide)]
      simp [hmem, htail]
    simp [hms]

theorem rtMember : ∀ (kv : String × Json) (f : Nat) (tail : List Char),
    fuelV kv.2 ≤ f → headNotDigit tail →
    parseMember (f + 1)
      ('\"' :: (escapeChars kv.1.data
        ++ ('\"' :: ':' :: ' ' :: (Json.dumpChars kv.2 ++ tail))))
      = some (kv.1, kv.2, tail)
  | (k, v), f, tail, hf, hnd => by
    simp only [parseMember]
    rw [skipWs_cons_not _ _ (by decide)]
    have hstr := rtString k.data
      ((escapeChars k.data ++ ('\"' :: ':' :: ' ' :: (Json.dumpChars v ++ tail))).length + 1)
      (':' :: ' ' :: (Json.dumpChars v ++ tail)) (by
        have := escapeChars_length_ge k.data
        simp only [List.length_append, List.length_cons]
        omega)
    have hv : parseValue f (Json.dumpChars v ++ tail) = some (v, tail) :=
      rtValue v f tail hf hnd
    have hws : skipWs (':' :: ' ' :: (Json.dumpChars v ++ tail))
        = ':' :: ' ' :: (Json.dumpChars v ++ tail) :=
      skipWs_cons_not _ _ (by decide)
    simp only [List.length_append, List.length_cons] at hstr
    simp [hstr, hws, parseValue_ws, hv]

theorem rtTail : ∀ (xs : List Json) (f : Nat) (rest : List Char),
    fuelTail xs ≤ f →
    parseElemsTail f (Json.dumpArr xs ++ ']' :: rest) = some (xs, rest)
  | [], f, rest, hf => by
    obtain ⟨f', rfl⟩ : ∃ f', f = f' + 1 := ⟨f - 1, by simp [fuelTail] at hf; omega⟩
    show parseElemsTail (f' + 1) (']' :: rest) = some ([], rest)
    simp only [parseElemsTail]
    rw [skipWs_cons_not _ _ (by decide)]
    simp
  | x :: xs, f, rest, hf => by
    simp only [fuelTail] at hf
    obtain ⟨f', rfl⟩ : ∃ f', f = f' + 1 := ⟨f - 1, by omega⟩
    show parseElemsTail (f' + 1)
        ((',' :: ' ' :: (Json.dumpChars x ++ Json.dumpArr xs)) ++ ']' :: rest)
      = some (x :: xs, rest)
    simp only [List.cons_append, List.append_assoc]
    simp only [parseElemsTail]
    rw [skipWs_cons_not _ _ (by decide)]
    have hv : parseValue f' (' ' :: (Json.dumpChars x ++ (Json.dumpArr xs ++ ']' :: rest)))
        = some (x, Json.dumpArr xs ++ ']' :: rest) := by
      rw [parseValue_ws]
      exact rtValue x f' _ (by omega) (hnd_dumpArr xs rest)
    have ht : parseElemsTail f' (Json.dumpArr xs ++ ']' :: rest) = some (xs, rest) :=
      rtTail xs f' rest (by omega)
    simp [hv, ht]

theorem rtMTail : ∀ (kvs : List (String × Json)) (f : Nat) (rest : List Char),
    fuelMTail kvs ≤ f →
    parseMembersTail f (Json.dumpObj kvs ++ '\x7d' :: rest) = some (kvs, rest)
  | [], f, rest, hf => by
    obtain ⟨f', rfl⟩ : ∃ f', f = f' + 1 := ⟨f - 1, by simp [fuelMTail] at hf; omega⟩
    show parseMembersTail (f' + 1) ('\x7d' :: rest) = some ([], rest)
    simp only [parseMembersTail]
    rw [skipWs_cons_not _ _ (by decide)]
    simp
  | (k, v) :: kvs, f, rest, hf => by
    simp only [fuelMTail] at hf
    obtain ⟨f', rfl⟩ : ∃ g, f = g + 1 := ⟨f - 1, by omega⟩
    show parseMembersTail (f' + 1)
        ((',' :: ' ' :: '\"' :: (escapeChars k.data ++ ['\"', ':', ' ']
          ++ Json.dumpChars v ++ Json.dumpObj kvs)) ++ '\x7d' :: rest)
      = some ((k, v) :: kvs, rest)
    simp only [List.cons_append, List.append_assoc, List.nil_append]
    simp only [parseMembersTail]
    rw [skipWs_cons_not _ _ (by decide)]
    have hmem : parseMember f'
        (' ' :: '\"' :: (escapeChars k.data
          ++ ('\"' :: ':' :: ' ' :: (Json.dumpChars v ++ (Json.dumpObj kvs ++ '\x7d' :: rest)))))
        = some (k, v, Json.dumpObj kvs ++ '\x7d' :: rest) := by
      obtain ⟨f'', rfl⟩ : ∃ g, f' = g + 1 := ⟨f' - 1, by omega⟩
      rw [parseMember_ws]
      exact rtMember (k, v) f'' _ (show fuelV v ≤ f'' by omega) (hnd_dumpObj kvs rest)
    have ht : parseMembersTail f' (Json.dumpObj kvs ++ '\x7d' :: rest)
        = some (kvs, rest) :=
      rtMTail kvs f' rest (by omega)
    simp [hmem, ht]

end

mutual

theorem fuelV_le : ∀ v : Json, fuelV v ≤ 2 * (Json.dumpChars v).length + 2
  | .null => by simp [fuelV, Json.dumpChars]
  | .bool b => by cases b <;> simp [fuelV, Json.dumpChars]
  | .num i => by simp only [fuelV]; omega
  | .str s => by simp only [fuelV]; omega
  | .arr [] => by simp [fuelV, Json.dumpChars]
  | .arr (x :: xs) => by
    have h1 := fuelV_le x
    have h2 := fuelTail_le xs
    simp only [fuelV, Json.dumpChars, List.length_cons, List.length_append]
    omega
  | .obj [] => by simp [fuelV, Json.dumpChars]
  | .obj ((k, v) :: kvs) => by
    have h1 := fuelV_le v
    have h2 := fuelMTail_le kvs
    simp only [fuelV, Json.dumpChars, List.length_cons, List.length_append]
    omega

theorem fuelTail_le : ∀ xs : List Json, fuelTail xs ≤ 2 * (Json.dumpArr xs).length + 2
  | [] => by simp [fuelTail, Json.dumpArr]
  | x :: xs => by
    have h1 := fuelV_le x
    have h2 := fuelTail_le xs
    simp only [fuelTail, Json.dumpArr, List.length_cons, List.length_append]
    omega

theorem fuelMTail_le : ∀ kvs : List (String × Json),
    fuelMTail kvs ≤ 2 * (Json.dumpObj kvs).length + 2
  | [] => by simp [fuelMTail, Json.dumpObj]
  | (k, v) :: kvs => by
    have h1 := fuelV_le v
    have h2 := fuelMTail_le kvs
    simp only [fuelMTail, Json.dumpObj, List.length_cons, List.length_append]
    omega

end

/-- `json.loads` is a left inverse of `json.dumps` on the model. -/
theorem json_loads_dumps (v : Json) : json_loads (json_dumps v) = some v := by
  have hrt := rtValue v (2 * (Json.dumpChars v).length + 2) [] (fuelV_le v) trivial
  rw [List.append_nil] at hrt
  unfold json_loads json_dumps
  rw [show (⟨Json.dumpChars v⟩ : String).data = Json.dumpChars v from rfl, hrt]
  simp [skipWs]

theorem find_map_set (k : String) (w : Json) :
    ∀ t : KvTable, t.any (fun p => p.1 == k) = true →
      (t.map (fun p => if p.1 == k then (k, w) else p)).find? (fun p => p.1 == k)
        = some (k, w)
  | [], h => by cases h
  | p :: t', h => by
    by_cases hp : (p.1 == k) = true
    · simp only [List.map_cons, if_pos hp, List.find?_cons]
      rw [show (k == k) = true by simp]
    · have ht' : t'.any (fun p => p.1 == k) = true := by
        simp only [List.any_cons, hp, Bool.false_or] at h
        exact h
      have hp' : (p.1 == k) = false := Bool.eq_false_iff.mpr hp
      simp only [List.map_cons, if_neg hp, List.find?_cons]
      rw [hp']
      exact find_map_set k w t' ht'

theorem find_append_set (k : String) (w : Json) :
    ∀ t : KvTable, t.any (fun p => p.1 == k) = false →
      ((t ++ [(k, w)]).find? (fun p => p.1 == k)) = some (k, w)
  | [], _ => by
    simp only [List.nil_append, List.find?_cons]
    rw [show (k == k) = true by simp]
  | p :: t', h => by
    have hp : (p.1 == k) = false := by
      simp only [List.any_cons, Bool.or_eq_false_iff] at h
      exact h.1
    have ht' : t'.any (fun p => p.1 == k) = false := by
      simp only [List.any_cons, Bool.or_eq_false_iff] at h
      exact h.2
    simp only [List.cons_append, List.find?_cons]
    rw [hp]
    exact find_append_set k w t' ht'

/-- C6: KV round-trip.  For every key and every document of the model
(nested mappings and empty documents included), `db_set k v` succeeds
and a following `db_get k` returns exactly `v` — both when the driver
decodes the stored JSONB itself and when it hands back raw JSON text
that `db_get` must `json.loads`. -/
theorem db_set_db_get_round_trip (k : String) (v : Json) (t : KvTable) (asText : Bool) :
    ∃ t', db_set k v t = some t' ∧ db_get asText k t' = some v := by
  have hld := json_loads_dumps v
  by_cases hex : t.any (fun p => p.1 == k) = true
  · refine ⟨t.map (fun p => if p.1 == k then (k, v) else p), ?_, ?_⟩
    · simp only [db_set, hld, hex, if_true]
    · simp only [db_get, find_map_set k v t hex]
      cases asText with
      | true => simp [hld]
      | false => simp
  · have hex' : t.any (fun p => p.1 == k) = false := Bool.eq_false_iff.mpr hex
    refine ⟨t ++ [(k, v)], ?_, ?_⟩
    · simp only [db_set, hld, hex', Bool.false_eq_true, if_false]
    · simp only [db_get, find_append_set k v t hex']
      cases asText with
      | true => simp [hld]
      | false => simp
